import Mathlib

/-
Verification of the gget package-manager core against its specification.

The development shallowly embeds the Rust modules of the repository:
  * src/cache.rs      (DiskStorage / HybridCache, TTL expiry)
  * src/dependency.rs (import extraction, dependency graph, Kahn topological sort)
  * src/parallel.rs   (priority download queue, retry loop, download summary)
  * src/fetch.rs      (atomic package commit via a temporary sibling directory)

Ordered maps (the Rust IndexMap and the on-disk directory of cache files) are
modelled as association lists in insertion order; machine integers (u8, u32,
u64, usize) are modelled as Nat since no reachable computation overflows, and
where a usize decrement below zero would panic in the source we note that the
proved invariants keep every decremented value positive.
-/

set_option linter.unusedVariables false

/-! ## Association-list helpers (ordered maps keyed by String) -/

/-- First-match lookup in an association list, mirroring map lookup. -/
def alookup {α : Type} : List (String × α) → String → Option α
  | [], _ => none
  | (k, v) :: rest, key => if k = key then some v else alookup rest key

/-- Modify in place the value stored at an existing key (no-op when the key is
absent), mirroring IndexMap get_mut; insertion order is preserved. -/
def amodify {α : Type} (l : List (String × α)) (key : String) (f : α → α) :
    List (String × α) :=
  match l with
  | [] => []
  | (k, v) :: rest =>
    if k = key then (k, f v) :: rest else (k, v) :: amodify rest key f

/-- Insert or overwrite the value stored at a key, mirroring map insert /
re-writing a file at a path. -/
def aset {α : Type} (l : List (String × α)) (key : String) (v : α) :
    List (String × α) :=
  match l with
  | [] => [(key, v)]
  | (k, w) :: rest =>
    if k = key then (k, v) :: rest else (k, w) :: aset rest key v

/-- Remove the entry stored at a key, mirroring deletion of a file. -/
def aremove {α : Type} (l : List (String × α)) (key : String) :
    List (String × α) :=
  match l with
  | [] => []
  | (k, v) :: rest => if k = key then rest else (k, v) :: aremove rest key

theorem alookup_mem_keys {α : Type} {l : List (String × α)} {key : String}
    {v : α} (h : alookup l key = some v) : key ∈ l.map Prod.fst := by
  induction l with
  | nil => simp [alookup] at h
  | cons p rest ih =>
    by_cases hk : p.1 = key
    · exact List.mem_map.mpr ⟨p, by simp, hk⟩
    · simp only [alookup, hk, if_false] at h
      exact List.mem_cons_of_mem _ (ih h)

theorem alookup_not_mem_keys {α : Type} {l : List (String × α)} {key : String}
    (h : key ∉ l.map Prod.fst) : alookup l key = none := by
  cases hlk : alookup l key with
  | none => rfl
  | some v => exact absurd (alookup_mem_keys hlk) h

theorem alookup_aset_self {α : Type} (l : List (String × α)) (key : String)
    (v : α) : alookup (aset l key v) key = some v := by
  induction l with
  | nil => simp [aset, alookup]
  | cons p rest ih =>
    by_cases h : p.1 = key
    · simp [aset, alookup, h]
    · simp [aset, alookup, h, ih]

theorem mem_keys_aset {α : Type} (l : List (String × α)) (key x : String)
    (v : α) : x ∈ (aset l key v).map Prod.fst ↔ x ∈ l.map Prod.fst ∨ x = key := by
  induction l with
  | nil => simp [aset, eq_comm]
  | cons p rest ih =>
    by_cases h : p.1 = key
    · subst h
      simp only [aset, if_true, List.map_cons]
      constructor
      · intro hm
        rcases List.mem_cons.mp hm with h1 | h1
        · exact Or.inl (List.mem_cons.mpr (Or.inl h1))
        · exact Or.inl (List.mem_cons.mpr (Or.inr h1))
      · intro hm
        rcases hm with h1 | h1
        · exact h1
        · exact List.mem_cons.mpr (Or.inl h1)
    · simp only [aset, h, if_false, List.map_cons, List.mem_cons, ih]
      tauto

theorem nodup_keys_aset {α : Type} (l : List (String × α)) (key : String)
    (v : α) (hnd : (l.map Prod.fst).Nodup) :
    ((aset l key v).map Prod.fst).Nodup := by
  induction l with
  | nil => simp [aset]
  | cons p rest ih =>
    simp only [List.map_cons, List.nodup_cons] at hnd
    by_cases h : p.1 = key
    · subst h
      simp only [aset, if_true, List.map_cons, List.nodup_cons]
      exact hnd
    · simp only [aset, h, if_false, List.map_cons, List.nodup_cons]
      refine ⟨?_, ih hnd.2⟩
      intro hmem
      rcases (mem_keys_aset rest key p.1 v).mp hmem with h1 | h1
      · exact hnd.1 h1
      · exact h h1

theorem alookup_aremove_self {α : Type} (l : List (String × α)) (key : String)
    (hnd : (l.map Prod.fst).Nodup) : alookup (aremove l key) key = none := by
  induction l with
  | nil => simp [aremove, alookup]
  | cons p rest ih =>
    simp only [List.map_cons, List.nodup_cons] at hnd
    by_cases h : p.1 = key
    · subst h
      simp only [aremove, if_true]
      exact alookup_not_mem_keys hnd.1
    · simp [aremove, alookup, h, ih hnd.2]

theorem alookup_aremove_ne {α : Type} (l : List (String × α)) (key m : String)
    (hne : m ≠ key) : alookup (aremove l key) m = alookup l m := by
  induction l with
  | nil => simp [aremove]
  | cons p rest ih =>
    by_cases h : p.1 = key
    · subst h
      have : ¬ (p.1 = m) := fun hc => hne (hc ▸ rfl)
      simp [aremove, alookup, this]
    · simp only [aremove, h, if_false]
      by_cases hm : p.1 = m
      · simp [alookup, hm]
      · simp [alookup, hm, ih]

/-! ## Cache (src/cache.rs)

One on-disk cache file per key; the file path is derived from the key by a
collision-resistant hash, so distinct live keys occupy distinct paths and the
disk is modelled as an association list keyed by the logical key.  A file is
either a decodable CacheEntry record, or present but faulty (an IO error on
read, or undecodable JSON). -/

/-- Entry stored on disk: raw value, creation time (seconds since epoch) and
TTL in seconds.  Mirrors CacheEntry of src/cache.rs. -/
structure CacheEntry where
  content : String
  timestamp : Nat
  ttl : Nat
deriving DecidableEq

/-- The two error classes of src/cache.rs CacheError. -/
inductive CacheErr where
  | io
  | json
deriving DecidableEq

/-- State of one cache file on disk. -/
inductive FileData where
  | entry (e : CacheEntry)
  | unreadable
  | undecodable
deriving DecidableEq

abbrev Disk := List (String × FileData)

/-- DiskStorage::get: absent path yields Ok(None); a present file is read and
decoded (faults propagate); an expired entry (now >= timestamp + ttl) is
removed from disk and reported absent. -/
def diskGet (now : Nat) (disk : Disk) (key : String) :
    Except CacheErr (Option String) × Disk :=
  match alookup disk key with
  | none => (Except.ok none, disk)
  | some FileData.unreadable => (Except.error CacheErr.io, disk)
  | some FileData.undecodable => (Except.error CacheErr.json, disk)
  | some (FileData.entry e) =>
    if now ≥ e.timestamp + e.ttl then
      (Except.ok none, aremove disk key)
    else
      (Except.ok (some e.content), disk)

/-- DiskStorage::set: always rewrites the file with timestamp = now and the
storage default TTL. -/
def diskSet (now defaultTtl : Nat) (disk : Disk) (key value : String) : Disk :=
  aset disk key
    (FileData.entry { content := value, timestamp := now, ttl := defaultTtl })

/-- DiskStorage::cleanup: sweep every file; files that read and decode to an
entry with now > timestamp + ttl are removed, all other files (including
unreadable or undecodable ones) are kept. -/
def diskCleanup (now : Nat) (disk : Disk) : Disk :=
  disk.filter (fun p =>
    match p.2 with
    | FileData.entry e => !(decide (now > e.timestamp + e.ttl))
    | _ => true)

abbrev MemTier := List (String × String)

/-- HybridCache::get: memory tier first; on a miss consult the disk tier,
promoting a disk hit into memory. -/
def hybridGet (now : Nat) (mem : MemTier) (disk : Disk) (key : String) :
    Except CacheErr (Option String) × MemTier × Disk :=
  match alookup mem key with
  | some v => (Except.ok (some v), mem, disk)
  | none =>
    match diskGet now disk key with
    | (Except.error e, dsk) => (Except.error e, mem, dsk)
    | (Except.ok (some v), dsk) => (Except.ok (some v), aset mem key v, dsk)
    | (Except.ok none, dsk) => (Except.ok none, mem, dsk)

/-- C4: a set followed by a get returns the stored value while the entry is
unexpired (read time < timestamp + ttl); once the TTL has elapsed (read time
>= timestamp + ttl, e.g. a zero TTL) the get reports the key absent and the
backing disk file no longer exists afterwards. -/
theorem c4_cache_roundtrip_expiry (now now2 defaultTtl : Nat) (disk : Disk)
    (k v : String) (hnd : (disk.map Prod.fst).Nodup) :
    (now2 < now + defaultTtl →
      diskGet now2 (diskSet now defaultTtl disk k v) k
        = (Except.ok (some v), diskSet now defaultTtl disk k v)) ∧
    (now2 ≥ now + defaultTtl →
      (diskGet now2 (diskSet now defaultTtl disk k v) k).1 = Except.ok none ∧
      alookup (diskGet now2 (diskSet now defaultTtl disk k v) k).2 k = none) := by
  have hset : alookup (diskSet now defaultTtl disk k v) k
      = some (FileData.entry { content := v, timestamp := now, ttl := defaultTtl }) :=
    alookup_aset_self _ _ _
  have hndset : ((diskSet now defaultTtl disk k v).map Prod.fst).Nodup :=
    nodup_keys_aset _ _ _ hnd
  constructor
  · intro hfresh
    have : ¬ (now2 ≥ now + defaultTtl) := by omega
    simp [diskGet, hset, this]
  · intro hexp
    simp only [diskGet, hset]
    rw [if_pos (by simpa using hexp)]
    exact ⟨rfl, alookup_aremove_self _ _ hndset⟩

/-- C4 witness at a concrete run: key stored at time 0 with TTL 10, read back
at time 3 (hit) and at time 10 (expired, file gone). -/
theorem c4_cache_roundtrip_expiry_witness :
    (diskGet 3 (diskSet 0 10 [] "k" "v") "k"
        = (Except.ok (some "v"), diskSet 0 10 [] "k" "v")) ∧
    ((diskGet 10 (diskSet 0 10 [] "k" "v") "k").1 = Except.ok none ∧
      alookup (diskGet 10 (diskSet 0 10 [] "k" "v") "k").2 "k" = none) :=
  ⟨(c4_cache_roundtrip_expiry 0 3 10 [] "k" "v" (by decide)).1 (by decide),
   (c4_cache_roundtrip_expiry 0 10 10 [] "k" "v" (by decide)).2 (by decide)⟩

/-- Concrete disk for the C5 boundary counterexample: one decodable entry with
timestamp 0 and ttl 0. -/
def c5BoundaryDisk : Disk :=
  [("k", FileData.entry { content := "v", timestamp := 0, ttl := 0 })]

/-- C5 counterexample: at the exact boundary instant now = timestamp + ttl the
sweep does NOT delete the entry (the code tests now > timestamp + ttl,
strictly), refuting the claim that every entry with now >= timestamp + ttl is
deleted. -/
theorem c5_cleanup_boundary_counterexample :
    (0 : Nat) ≥ 0 + 0 ∧
    alookup (diskCleanup 0 c5BoundaryDisk) "k"
      = some (FileData.entry { content := "v", timestamp := 0, ttl := 0 }) := by
  decide

/-- C5 amended: cleanup deletes exactly the present, decodable entries with
now strictly greater than timestamp + ttl; a decodable entry observed at the
boundary instant now = timestamp + ttl is retained by the sweep, and faulty
files are left in place. -/
theorem c5_cleanup_strict (now : Nat) (disk : Disk) (k : String)
    (hnd : (disk.map Prod.fst).Nodup) :
    alookup (diskCleanup now disk) k =
      match alookup disk k with
      | some (FileData.entry e) =>
        if now > e.timestamp + e.ttl then none else some (FileData.entry e)
      | other => other := by
  induction disk with
  | nil => simp [diskCleanup, alookup]
  | cons p rest ih =>
    simp only [List.map_cons, List.nodup_cons] at hnd
    by_cases hk : p.1 = k
    · subst hk
      cases hd : p.2 with
      | entry e =>
        by_cases hexp : now > e.timestamp + e.ttl
        · have hnone : alookup rest p.1 = none := alookup_not_mem_keys hnd.1
          have hrest : alookup (diskCleanup now rest) p.1 = none := by
            rw [ih hnd.2, hnone]
          simp only [diskCleanup, List.filter_cons, hd]
          rw [if_neg (by simp [hexp])]
          simp only [diskCleanup] at hrest
          simp [alookup, hd, hexp, hrest]
        · simp [diskCleanup, List.filter_cons, hd, hexp, alookup]
      | unreadable => simp [diskCleanup, List.filter_cons, hd, alookup]
      | undecodable => simp [diskCleanup, List.filter_cons, hd, alookup]
    · cases hd : p.2 with
      | entry e =>
        by_cases hexp : now > e.timestamp + e.ttl
        · simp only [diskCleanup, List.filter_cons, hd]
          rw [if_neg (by simp [hexp])]
          simp only [diskCleanup] at ih
          simp [alookup, hk, ih hnd.2]
        · simp only [diskCleanup, List.filter_cons, hd]
          rw [if_pos (by simp [hexp])]
          simp only [diskCleanup] at ih
          simp [alookup, hk, ih hnd.2]
      | unreadable =>
        simp only [diskCleanup, List.filter_cons, hd]
        simp only [diskCleanup] at ih
        simp [alookup, hk, ih hnd.2]
      | undecodable =>
        simp only [diskCleanup, List.filter_cons, hd]
        simp only [diskCleanup] at ih
        simp [alookup, hk, ih hnd.2]

/-- C5 amended witness: a strictly expired entry is swept. -/
theorem c5_cleanup_strict_witness :
    alookup (diskCleanup 1 c5BoundaryDisk) "k" =
      (match alookup c5BoundaryDisk "k" with
      | some (FileData.entry e) =>
        if 1 > e.timestamp + e.ttl then none else some (FileData.entry e)
      | other => other) :=
  c5_cleanup_strict 1 c5BoundaryDisk "k" (by decide)

/-- C9: a key with no stored entry (absent from memory and disk) yields
Ok(None), never an error; and an error can only arise from an IO or decode
fault on a file that is present on disk. -/
theorem c9_get_missing_key_no_error (now : Nat) (mem : MemTier) (disk : Disk)
    (k : String) :
    (alookup mem k = none → alookup disk k = none →
      hybridGet now mem disk k = (Except.ok none, mem, disk)) ∧
    (∀ e, (hybridGet now mem disk k).1 = Except.error e →
      alookup mem k = none ∧
      ∃ d, alookup disk k = some d ∧
        (d = FileData.unreadable ∨ d = FileData.undecodable)) := by
  constructor
  · intro hmem hdisk
    simp [hybridGet, diskGet, hmem, hdisk]
  · intro e herr
    cases hmem : alookup mem k with
    | some v => simp [hybridGet, hmem] at herr
    | none =>
      refine ⟨rfl, ?_⟩
      cases hdisk : alookup disk k with
      | none => simp [hybridGet, diskGet, hmem, hdisk] at herr
      | some d =>
        cases d with
        | entry ent =>
          by_cases hexp : now ≥ ent.timestamp + ent.ttl
          · simp [hybridGet, diskGet, hmem, hdisk, hexp] at herr
          · simp [hybridGet, diskGet, hmem, hdisk, hexp] at herr
        | unreadable => exact ⟨_, rfl, Or.inl rfl⟩
        | undecodable => exact ⟨_, rfl, Or.inr rfl⟩

/-- C9 witness: empty cache tiers, missing key, and the error case
instantiated on the reported error shape. -/
theorem c9_get_missing_key_no_error_witness :
    (alookup ([] : MemTier) "k" = none → alookup ([] : Disk) "k" = none →
      hybridGet 0 [] [] "k" = (Except.ok none, [], [])) ∧
    (∀ e, (hybridGet 0 ([] : MemTier) ([] : Disk) "k").1 = Except.error e →
      alookup ([] : MemTier) "k" = none ∧
      ∃ d, alookup ([] : Disk) "k" = some d ∧
        (d = FileData.unreadable ∨ d = FileData.undecodable)) :=
  c9_get_missing_key_no_error 0 [] [] "k"

/-! ## Parallel download orchestrator (src/parallel.rs) -/

/-- Error taxonomy of src/parallel.rs DownloadError (payloads abstracted where
they carry foreign types). -/
inductive DownloadError where
  | network (msg : String)
  | io
  | timeout
  | checksumMismatch
  | cancelled
  | maxRetriesExceeded
  | packageManager
deriving DecidableEq

/-- Retry configuration; durations are in nanoseconds.  The f64 multiplier
field is not stored here: the floating-point Duration::mul_f64 step is
modelled by an explicit function argument on the retry loop. -/
structure RetryConfig where
  max_attempts : Nat
  initial_backoff : Nat
  max_backoff : Nat
deriving DecidableEq

/-- Rust RetryConfig::default (1s initial, 30s max, 3 attempts). -/
def defaultRetryConfig : RetryConfig :=
  { max_attempts := 3
    initial_backoff := 1000000000
    max_backoff := 30000000000 }

/-- A queued download task, mirroring DownloadTask of src/parallel.rs. -/
structure DownloadTask where
  package_id : String
  package_path : String
  target_dir : String
  priority : Nat
  retry_config : RetryConfig
deriving DecidableEq

/-- VecDeque::insert at a position that is at most the length. -/
def insertAt {α : Type} : Nat → α → List α → List α
  | 0, a, l => a :: l
  | _ + 1, a, [] => [a]
  | n + 1, a, x :: xs => x :: insertAt n a xs

/-- DownloadManager::queue_download: find the first queued task of strictly
lower priority and insert in front of it (at the back when none exists). -/
def queueDownload (queue : List DownloadTask) (task : DownloadTask) :
    List DownloadTask :=
  let position := queue.findIdx (fun t => t.priority < task.priority)
  insertAt position task queue

/-- The dequeue loop of process_queue: pop the front until the queue is
empty, yielding tasks in queue order. -/
def drainQueue : List DownloadTask → List DownloadTask
  | [] => []
  | t :: rest => t :: drainQueue rest

/-- One failed entry of the summary, mirroring FailedDownload. -/
structure FailedDownload where
  package : String
  error : DownloadError
  retry_count : Nat
deriving DecidableEq

/-- Aggregate result of process_queue (the wall-clock duration field is
omitted: real time is outside the embedding). -/
structure DownloadSummary where
  total_packages : Nat
  successful : Nat
  failed : List FailedDownload
deriving DecidableEq

/-- The three ways a spawned task handle can resolve: Ok result, Err result,
or a panicked/aborted join. -/
inductive TaskOutcome where
  | ok
  | err (e : DownloadError)
  | panicked (msg : String)

/-- DownloadManager::process_queue aggregation: drain the queue, then tally
one success per Ok handle and record each Err or panicked handle as a
FailedDownload whose retry_count is the literal 0 of the source. -/
def processQueue (queue : List DownloadTask)
    (outcome : DownloadTask → TaskOutcome) : DownloadSummary :=
  let tasks := drainQueue queue
  { total_packages := tasks.length
    successful := (tasks.filter (fun t =>
      match outcome t with
      | TaskOutcome.ok => true
      | _ => false)).length
    failed := tasks.filterMap (fun t =>
      match outcome t with
      | TaskOutcome.ok => none
      | TaskOutcome.err e =>
        some { package := t.package_id, error := e, retry_count := 0 }
      | TaskOutcome.panicked m =>
        some { package := t.package_id
               error := DownloadError.network ("Task panic: " ++ m)
               retry_count := 0 }) }

theorem queueDownload_nil (t : DownloadTask) : queueDownload [] t = [t] := rfl

theorem queueDownload_cons (x : DownloadTask) (xs : List DownloadTask)
    (t : DownloadTask) :
    queueDownload (x :: xs) t =
      if x.priority < t.priority then t :: x :: xs
      else x :: queueDownload xs t := by
  by_cases h : x.priority < t.priority
  · simp [queueDownload, List.findIdx_cons, h, insertAt]
  · simp [queueDownload, List.findIdx_cons, h, insertAt]

theorem mem_queueDownload {y t : DownloadTask} {q : List DownloadTask} :
    y ∈ queueDownload q t ↔ y ∈ q ∨ y = t := by
  induction q with
  | nil => simp [queueDownload_nil]
  | cons x xs ih =>
    rw [queueDownload_cons]
    by_cases h : x.priority < t.priority
    · simp [h]
      tauto
    · simp [h, ih]
      tauto

/-- Inserting via queue_download keeps the queue sorted by descending
priority. -/
theorem queueDownload_sorted {q : List DownloadTask} (t : DownloadTask)
    (hs : q.Pairwise (fun a b => b.priority ≤ a.priority)) :
    (queueDownload q t).Pairwise (fun a b => b.priority ≤ a.priority) := by
  induction q with
  | nil => simp [queueDownload_nil]
  | cons x xs ih =>
    rw [queueDownload_cons]
    rcases List.pairwise_cons.mp hs with ⟨hx, hxs⟩
    by_cases h : x.priority < t.priority
    · rw [if_pos h]
      refine List.pairwise_cons.mpr ⟨?_, hs⟩
      intro y hy
      rcases List.mem_cons.mp hy with h1 | h1
      · subst h1
        omega
      · have := hx y h1
        omega
    · rw [if_neg h]
      refine List.pairwise_cons.mpr ⟨?_, ih hxs⟩
      intro y hy
      rcases mem_queueDownload.mp hy with h1 | h1
      · exact hx y h1
      · subst h1
        omega

/-- Inserting via queue_download places the new task after every queued task
of equal priority and changes no other priority class: the subsequence of any
fixed priority p gains the task at its back exactly when the task has
priority p. -/
theorem queueDownload_filter {q : List DownloadTask} (t : DownloadTask)
    (hs : q.Pairwise (fun a b => b.priority ≤ a.priority)) (p : Nat) :
    (queueDownload q t).filter (fun u => u.priority = p) =
      q.filter (fun u => u.priority = p) ++
        (if t.priority = p then [t] else []) := by
  induction q with
  | nil =>
    rw [queueDownload_nil]
    by_cases h : t.priority = p
    · simp [h]
    · simp [h]
  | cons x xs ih =>
    rw [queueDownload_cons]
    rcases List.pairwise_cons.mp hs with ⟨hx, hxs⟩
    by_cases h : x.priority < t.priority
    · rw [if_pos h]
      by_cases hp : t.priority = p
      · subst hp
        have hnone :
            (x :: xs).filter (fun u => decide (u.priority = t.priority)) = [] := by
          rw [List.filter_eq_nil_iff]
          intro y hy
          rcases List.mem_cons.mp hy with h1 | h1
          · subst h1
            simp only [decide_eq_true_eq]
            omega
          · have := hx y h1
            simp only [decide_eq_true_eq]
            omega
        rw [List.filter_cons_of_pos (by simp), hnone]
        simp
      · rw [List.filter_cons_of_neg (by simpa using hp)]
        simp [hp]
    · rw [if_neg h]
      by_cases hx2 : x.priority = p
      · rw [List.filter_cons_of_pos (by simpa using hx2),
          List.filter_cons_of_pos (by simpa using hx2), ih hxs]
        simp
      · rw [List.filter_cons_of_neg (by simpa using hx2),
          List.filter_cons_of_neg (by simpa using hx2), ih hxs]

theorem drainQueue_eq (q : List DownloadTask) : drainQueue q = q := by
  induction q with
  | nil => rfl
  | cons t rest ih => simp [drainQueue, ih]

/-- Folding queue_download over an arrival list keeps the queue sorted by
descending priority and stable within each priority class. -/
theorem foldl_queueDownload_spec (tasks q : List DownloadTask)
    (hs : q.Pairwise (fun a b => b.priority ≤ a.priority)) :
    (tasks.foldl queueDownload q).Pairwise (fun a b => b.priority ≤ a.priority) ∧
    ∀ p, (tasks.foldl queueDownload q).filter (fun u => u.priority = p) =
      q.filter (fun u => u.priority = p) ++
        tasks.filter (fun u => u.priority = p) := by
  induction tasks generalizing q with
  | nil =>
    refine ⟨by simpa using hs, fun p => ?_⟩
    simp
  | cons t rest ih =>
    have hs2 := queueDownload_sorted t hs
    rcases ih (queueDownload q t) hs2 with ⟨ha, hb⟩
    refine ⟨by simpa using ha, ?_⟩
    intro p
    simp only [List.foldl_cons]
    rw [hb p, queueDownload_filter t hs p]
    by_cases hp : t.priority = p
    · rw [List.filter_cons_of_pos (by simpa using hp)]
      simp [hp]
    · rw [List.filter_cons_of_neg (by simpa using hp)]
      simp [hp]

/-- The four tasks of the specification example, queued with priorities
1, 10, 5, 20 in that arrival order. -/
def c6Task (name : String) (prio : Nat) : DownloadTask :=
  { package_id := name
    package_path := name
    target_dir := "pkgs"
    priority := prio
    retry_config := defaultRetryConfig }

def c6ExampleTasks : List DownloadTask :=
  [c6Task "p1" 1, c6Task "p10" 10, c6Task "p5" 5, c6Task "p20" 20]

/-- C6: for every arrival sequence the internal queue stays ordered by
descending priority with equal-priority tasks in arrival order, process_queue
dequeues from the front in exactly that order, and the example arrival
priorities 1, 10, 5, 20 under concurrency 1 execute as 20, 10, 5, 1. -/
theorem c6_priority_queue (tasks : List DownloadTask) :
    ((drainQueue (tasks.foldl queueDownload [])).Pairwise
      (fun a b => b.priority ≤ a.priority) ∧
     ∀ p, (drainQueue (tasks.foldl queueDownload [])).filter
        (fun u => u.priority = p) = tasks.filter (fun u => u.priority = p)) ∧
    (drainQueue (c6ExampleTasks.foldl queueDownload [])).map
      DownloadTask.package_id = ["p20", "p10", "p5", "p1"] := by
  rcases foldl_queueDownload_spec tasks [] (by simp) with ⟨ha, hb⟩
  refine ⟨⟨by simpa [drainQueue_eq] using ha, ?_⟩, by decide⟩
  intro p
  rw [drainQueue_eq]
  simpa using hb p

/-- C10: every FailedDownload recorded in the summary produced by
process_queue carries retry_count = 0, for Err handles and for panicked
handles alike, regardless of how many attempts the retry loop performed. -/
theorem c10_failed_retry_count_zero (queue : List DownloadTask)
    (outcome : DownloadTask → TaskOutcome) :
    ∀ f ∈ (processQueue queue outcome).failed, f.retry_count = 0 := by
  intro f hf
  simp only [processQueue, List.mem_filterMap] at hf
  rcases hf with ⟨t, ht, hout⟩
  cases h : outcome t with
  | ok => rw [h] at hout; cases hout
  | err e =>
    rw [h] at hout
    cases hout
    rfl
  | panicked m =>
    rw [h] at hout
    cases hout
    rfl

/-- The sequence of backoff durations slept by the retry loop: it starts at
the given backoff and each subsequent sleep is the previous one put through
the multiplier step and capped at max_backoff. -/
def backoffSeq (mulB : Nat → Nat) (maxB : Nat) : Nat → Nat → List Nat
  | _, 0 => []
  | b, n + 1 => b :: backoffSeq mulB maxB (min (mulB b) maxB) n

/-- DownloadManager::download_with_retry inner loop.  attempts is incremented
at the top of each iteration; a successful call returns Ok, a failing call at
attempts >= max_attempts returns MaxRetriesExceeded, and otherwise the loop
sleeps the current backoff, caps the multiplied backoff at max_backoff and
retries.  results gives the outcome of each numbered invocation (true =
download_fn returned Ok) and mulB is the Duration::mul_f64 multiplier step.
Returns the result, how many invocations were made, and the slept backoffs. -/
def retryLoop (maxA : Nat) (mulB : Nat → Nat) (maxB : Nat)
    (results : Nat → Bool) (attempts backoff : Nat) :
    Except DownloadError Unit × Nat × List Nat :=
  let a := attempts + 1
  if results a then
    (Except.ok (), 1, [])
  else if h : a ≥ maxA then
    (Except.error DownloadError.maxRetriesExceeded, 1, [])
  else
    let r := retryLoop maxA mulB maxB results a (min (mulB backoff) maxB)
    (r.1, r.2.1 + 1, backoff :: r.2.2)
termination_by maxA - attempts
decreasing_by omega

/-- download_with_retry: run the loop from attempts = 0 with the task's
initial backoff. -/
def downloadWithRetry (cfg : RetryConfig) (mulB : Nat → Nat)
    (results : Nat → Bool) : Except DownloadError Unit × Nat × List Nat :=
  retryLoop cfg.max_attempts mulB cfg.max_backoff results 0 cfg.initial_backoff

/-- Bridge from the retry loop to the summary tally of process_queue. -/
def outcomeOfRetry (cfg : RetryConfig) (mulB : Nat → Nat)
    (results : Nat → Bool) : TaskOutcome :=
  match (downloadWithRetry cfg mulB results).1 with
  | Except.ok _ => TaskOutcome.ok
  | Except.error e => TaskOutcome.err e

theorem retryLoop_first_success (maxA : Nat) (mulB : Nat → Nat) (maxB : Nat)
    (results : Nat → Bool) (k : Nat) :
    ∀ n attempts backoff, k - attempts = n → attempts < k → k ≤ maxA →
      results k = true →
      (∀ j, attempts < j → j < k → results j = false) →
      retryLoop maxA mulB maxB results attempts backoff =
        (Except.ok (), k - attempts, backoffSeq mulB maxB backoff (k - attempts - 1)) := by
  intro n
  induction n with
  | zero =>
    intro attempts backoff hd hlt hle hk hfail
    omega
  | succ d ih =>
    intro attempts backoff hd hlt hle hk hfail
    by_cases hfirst : attempts + 1 = k
    · rw [retryLoop]
      simp only [hfirst, hk, if_true]
      have : d = 0 := by omega
      subst this
      simp [backoffSeq, hd]
    · have hresf : results (attempts + 1) = false :=
        hfail (attempts + 1) (by omega) (by omega)
      rw [retryLoop]
      simp only [hresf]
      rw [dif_neg (by omega)]
      have hrec := ih (attempts + 1) (min (mulB backoff) maxB) (by omega)
        (by omega) hle hk (fun j hj1 hj2 => hfail j (by omega) hj2)
      rw [hrec]
      simp only [Bool.false_eq_true, if_false]
      refine congrArg _ ?_
      have h1 : k - (attempts + 1) + 1 = k - attempts := by omega
      have h2 : k - attempts - 1 = (d - 1) + 1 := by omega
      refine Prod.ext ?_ ?_
      · simpa using h1
      · show backoff :: backoffSeq mulB maxB (min (mulB backoff) maxB) (k - (attempts + 1) - 1)
          = backoffSeq mulB maxB backoff (k - attempts - 1)
        have h3 : k - attempts - 1 = (k - (attempts + 1) - 1) + 1 := by omega
        rw [h3, backoffSeq]

theorem retryLoop_all_fail (maxA : Nat) (mulB : Nat → Nat) (maxB : Nat)
    (results : Nat → Bool) :
    ∀ n attempts backoff, maxA - attempts = n → attempts < maxA →
      (∀ j, attempts < j → j ≤ maxA → results j = false) →
      retryLoop maxA mulB maxB results attempts backoff =
        (Except.error DownloadError.maxRetriesExceeded, maxA - attempts,
          backoffSeq mulB maxB backoff (maxA - attempts - 1)) := by
  intro n
  induction n with
  | zero =>
    intro attempts backoff hd hlt hfail
    omega
  | succ d ih =>
    intro attempts backoff hd hlt hfail
    have hresf : results (attempts + 1) = false :=
      hfail (attempts + 1) (by omega) (by omega)
    by_cases hlast : attempts + 1 = maxA
    · rw [retryLoop]
      simp only [hresf, Bool.false_eq_true, if_false]
      rw [dif_pos (by omega)]
      have : d = 0 := by omega
      subst this
      simp [backoffSeq, hd]
    · rw [retryLoop]
      simp only [hresf, Bool.false_eq_true, if_false]
      rw [dif_neg (by omega)]
      have hrec := ih (attempts + 1) (min (mulB backoff) maxB) (by omega)
        (by omega) (fun j hj1 hj2 => hfail j (by omega) hj2)
      rw [hrec]
      refine congrArg _ (Prod.ext ?_ ?_)
      · show maxA - (attempts + 1) + 1 = maxA - attempts
        omega
      · show backoff :: backoffSeq mulB maxB (min (mulB backoff) maxB) (maxA - (attempts + 1) - 1)
          = backoffSeq mulB maxB backoff (maxA - attempts - 1)
        have h3 : maxA - attempts - 1 = (maxA - (attempts + 1) - 1) + 1 := by omega
        rw [h3, backoffSeq]

/-- C7: for max_attempts = m >= 1 the retry loop calls the underlying
operation until its first success and at most m times in total: if the first
success is invocation k <= m it returns Ok after exactly k invocations (and a
single-task queue then counts one success in the summary); if all m
invocations fail it returns the terminal MaxRetriesExceeded after exactly m
invocations.  In both cases the backoffs slept between consecutive attempts
start at initial_backoff and are thereafter put through the multiplier step
and capped at max_backoff. -/
theorem c7_retry_loop (cfg : RetryConfig) (mulB : Nat → Nat)
    (results : Nat → Bool) (hm : 1 ≤ cfg.max_attempts) :
    (∀ k, 1 ≤ k → k ≤ cfg.max_attempts → results k = true →
      (∀ j, 1 ≤ j → j < k → results j = false) →
      downloadWithRetry cfg mulB results =
        (Except.ok (), k,
          backoffSeq mulB cfg.max_backoff cfg.initial_backoff (k - 1)) ∧
      ∀ t : DownloadTask,
        (processQueue [t] (fun _ => outcomeOfRetry cfg mulB results)).successful = 1) ∧
    ((∀ j, 1 ≤ j → j ≤ cfg.max_attempts → results j = false) →
      downloadWithRetry cfg mulB results =
        (Except.error DownloadError.maxRetriesExceeded, cfg.max_attempts,
          backoffSeq mulB cfg.max_backoff cfg.initial_backoff
            (cfg.max_attempts - 1))) := by
  constructor
  · intro k hk1 hk2 hk hfail
    have hrun := retryLoop_first_success cfg.max_attempts mulB cfg.max_backoff
      results k k 0 cfg.initial_backoff (by omega) (by omega) hk2 hk
      (fun j hj1 hj2 => hfail j (by omega) hj2)
    have hdl : downloadWithRetry cfg mulB results =
        (Except.ok (), k,
          backoffSeq mulB cfg.max_backoff cfg.initial_backoff (k - 1)) := by
      rw [downloadWithRetry, hrun]
      simp
    refine ⟨hdl, ?_⟩
    intro t
    simp [processQueue, drainQueue, outcomeOfRetry, hdl]
  · intro hfail
    have hrun := retryLoop_all_fail cfg.max_attempts mulB cfg.max_backoff
      results cfg.max_attempts 0 cfg.initial_backoff (by omega) (by omega)
      (fun j hj1 hj2 => hfail j (by omega) hj2)
    rw [downloadWithRetry, hrun]
    simp

/-- C7 witness: a task failing twice then succeeding on the third attempt
with max_attempts 3 makes exactly 3 invocations, returns Ok, counts one
summary success, and sleeps backoffs 5 then min(5 * 2, 8) = 8; a task always
failing exhausts 3 invocations with MaxRetriesExceeded. -/
theorem c7_retry_loop_witness :
    (downloadWithRetry
        { max_attempts := 3, initial_backoff := 5, max_backoff := 8 }
        (fun b => 2 * b) (fun j => 3 ≤ j) =
      (Except.ok (), 3, [5, 8]) ∧
    (processQueue [c6Task "w" 1]
        (fun _ => outcomeOfRetry
          { max_attempts := 3, initial_backoff := 5, max_backoff := 8 }
          (fun b => 2 * b) (fun j => 3 ≤ j))).successful = 1) ∧
    downloadWithRetry
        { max_attempts := 3, initial_backoff := 5, max_backoff := 8 }
        (fun b => 2 * b) (fun _ => false) =
      (Except.error DownloadError.maxRetriesExceeded, 3, [5, 8]) := by
  have h := c7_retry_loop
    { max_attempts := 3, initial_backoff := 5, max_backoff := 8 }
    (fun b => 2 * b) (fun j => 3 ≤ j) (by decide)
  have h2 := c7_retry_loop
    { max_attempts := 3, initial_backoff := 5, max_backoff := 8 }
    (fun b => 2 * b) (fun _ => false) (by decide)
  have ha := h.1 3 (by decide) (by decide) (by decide)
    (fun j hj1 hj2 => by simp; omega)
  refine ⟨⟨?_, ?_⟩, ?_⟩
  · simpa [backoffSeq] using ha.1
  · exact ha.2 (c6Task "w" 1)
  · simpa [backoffSeq] using h2.2 (fun j hj1 hj2 => rfl)

/-! ## Atomic package commit (src/fetch.rs, download_package_atomic)

The filesystem slice touched by one atomic download is the uniquely named
temporary sibling directory and the target directory.  Fallible filesystem
primitives are modelled as atomic: each either succeeds or fails leaving the
tree unchanged, with an oracle fixing the outcome of every step. -/

abbrev PkgFiles := List (String × String)

/-- Relevant error classes of PackageManagerError for the commit sequence. -/
inductive PackageManagerErr where
  | downloadFailed
  | io
  | directoryCreation
deriving DecidableEq

/-- Directory tree slice: contents of the temp directory and of the target
directory (none = directory absent), plus whether the target's parent
directory exists. -/
structure AtomicFs where
  tempDir : Option PkgFiles
  targetDir : Option PkgFiles
  parentExists : Bool
deriving DecidableEq

/-- Outcome of the inner download_package call into the temp directory:
either the complete file set (Ok) or a failure that may have left partial
content (or not even created the directory) behind. -/
inductive DownloadOutcome where
  | success (files : PkgFiles)
  | failure (partialFiles : Option PkgFiles)
deriving DecidableEq

/-- Oracle fixing each fallible step of the commit sequence. -/
structure AtomicOracle where
  download : DownloadOutcome
  removeTargetOk : Bool
  createParentOk : Bool
  renameOk : Bool
deriving DecidableEq

/-- TempDirGuard::drop: remove the temp directory if it exists.  Runs on
every exit path of download_package_atomic. -/
def runGuard (fs : AtomicFs) : AtomicFs := { fs with tempDir := none }

/-- Final step: a successful rename moves the temp directory onto the target
path; a failing rename changes nothing and the guard then removes the temp
directory. -/
def commitRenameStep (o : AtomicOracle) (fs : AtomicFs) :
    Except PackageManagerErr Unit × AtomicFs :=
  if o.renameOk then
    (Except.ok (), { fs with targetDir := fs.tempDir, tempDir := none })
  else
    (Except.error PackageManagerErr.io, runGuard fs)

/-- Create the target's parent directory when it does not exist, then
rename. -/
def commitParentStep (o : AtomicOracle) (fs : AtomicFs) :
    Except PackageManagerErr Unit × AtomicFs :=
  if fs.parentExists then
    commitRenameStep o fs
  else if o.createParentOk then
    commitRenameStep o { fs with parentExists := true }
  else
    (Except.error PackageManagerErr.directoryCreation, runGuard fs)

/-- download_package_atomic: download into the unique temp sibling directory;
on success remove a pre-existing target directory, create a missing parent,
and rename temp onto target.  The drop guard removes the temp directory on
every exit path. -/
def downloadPackageAtomic (o : AtomicOracle) (fs0 : AtomicFs) :
    Except PackageManagerErr Unit × AtomicFs :=
  match o.download with
  | DownloadOutcome.failure part =>
    (Except.error PackageManagerErr.downloadFailed,
      runGuard { fs0 with tempDir := part })
  | DownloadOutcome.success files =>
    let fs1 : AtomicFs := { fs0 with tempDir := some files }
    match fs1.targetDir with
    | some _ =>
      if o.removeTargetOk then
        commitParentStep o { fs1 with targetDir := none }
      else
        (Except.error PackageManagerErr.io, runGuard fs1)
    | none => commitParentStep o fs1

/-- C8: the temp directory is removed on every exit path (success or
failure); any failure at a step before the final rename (a failed download,
or a failed removal of the pre-existing target) leaves the target directory
with exactly its prior contents; a target that did not exist stays absent
under every failure; and a fully successful run installs the downloaded
files at the target. -/
theorem c8_atomic_commit (o : AtomicOracle) (fs : AtomicFs)
    (hwf : fs.targetDir.isSome = true → fs.parentExists = true) :
    ((downloadPackageAtomic o fs).2.tempDir = none) ∧
    (∀ part, o.download = DownloadOutcome.failure part →
      (downloadPackageAtomic o fs).1 = Except.error PackageManagerErr.downloadFailed ∧
      (downloadPackageAtomic o fs).2.targetDir = fs.targetDir) ∧
    (∀ files, o.download = DownloadOutcome.success files →
      o.removeTargetOk = false → fs.targetDir.isSome = true →
      (downloadPackageAtomic o fs).1 = Except.error PackageManagerErr.io ∧
      (downloadPackageAtomic o fs).2.targetDir = fs.targetDir) ∧
    (fs.targetDir = none → ∀ e, (downloadPackageAtomic o fs).1 = Except.error e →
      (downloadPackageAtomic o fs).2.targetDir = none) ∧
    (∀ files, o.download = DownloadOutcome.success files → o.renameOk = true →
      (o.removeTargetOk = true ∨ fs.targetDir = none) →
      (fs.parentExists = true ∨ o.createParentOk = true) →
      (downloadPackageAtomic o fs).1 = Except.ok () ∧
      (downloadPackageAtomic o fs).2.targetDir = some files) := by
  obtain ⟨dl, rm, cp, rn⟩ := o
  obtain ⟨tmp, tgt, pe⟩ := fs
  cases dl <;> cases tgt <;> cases pe <;> cases rm <;> cases cp <;> cases rn <;>
    simp_all [downloadPackageAtomic, commitParentStep, commitRenameStep, runGuard]

/-- Concrete pre-state and oracle for the C8 witness: a pre-existing valid
target directory and a download that fails after writing partial content. -/
def c8Fs : AtomicFs :=
  { tempDir := none, targetDir := some [("avl.gno", "old")], parentExists := true }

def c8Oracle : AtomicOracle :=
  { download := DownloadOutcome.failure (some [("avl.gno", "half")])
    removeTargetOk := true
    createParentOk := true
    renameOk := true }

/-- C8 witness: on the concrete failing download, no temp directory remains
and the pre-existing target is untouched. -/
theorem c8_atomic_commit_witness :
    ((downloadPackageAtomic c8Oracle c8Fs).2.tempDir = none) ∧
    ((downloadPackageAtomic c8Oracle c8Fs).1
        = Except.error PackageManagerErr.downloadFailed ∧
      (downloadPackageAtomic c8Oracle c8Fs).2.targetDir = c8Fs.targetDir) :=
  ⟨(c8_atomic_commit c8Oracle c8Fs (by decide)).1,
   (c8_atomic_commit c8Oracle c8Fs (by decide)).2.1
     (some [("avl.gno", "half")]) rfl⟩

/-! ## Import extraction (src/dependency.rs, extract_imports) -/

/-- The configured registry path prefix GNO_LAND_PREFIX of
src/dependency.rs. -/
def gnoLandPfx : String := "gno.land/"

/-- Rust str::starts_with, as a prefix test on the character sequence. -/
def strStartsWith (s pfx : String) : Bool := pfx.data.isPrefixOf s.data

/-- Rust str::trim_matches with a single-character pattern: strip every
leading and every trailing occurrence of the quote character. -/
def trimQuotes (s : String) : String :=
  String.mk (((s.data.dropWhile (fun c => c = '"')).reverse.dropWhile
    (fun c => c = '"')).reverse)

/-- HashSet::insert on a set modelled as a duplicate-free list. -/
def insertSet (s : List String) (x : String) : List String :=
  if x ∈ s then s else s ++ [x]

/-- extract_imports: for every captured interpreted_string_literal, trim the
quotes and keep the text only when it starts with the registry prefix
(standard-library and third-party imports are silently dropped). -/
def extractImports (captures : List String) : List String :=
  captures.foldl (fun imports cap =>
    let importText := trimQuotes cap
    if strStartsWith importText gnoLandPfx then insertSet imports importText
    else imports) []

/-- Modelled from the spec: the name part of one import spec (plain, aliased,
or blank/discard-named), which the tree-sitter IMPORT_QUERY captures
optionally and extract_imports never reads. -/
inductive ImportSpecName where
  | plain
  | aliased (a : String)
  | blank
deriving DecidableEq

/-- Modelled from the spec: one import spec with its interpreted string
literal path (quotes included). -/
structure ImportSpec where
  name : ImportSpecName
  path : String
deriving DecidableEq

/-- Modelled from the spec: an import declaration, either a single spec or a
parenthesised group of specs. -/
inductive ImportDecl where
  | single (spec : ImportSpec)
  | grouped (specs : List ImportSpec)
deriving DecidableEq

/-- Modelled from the spec: the tree-sitter IMPORT_QUERY captures the path
literal of every import spec, single or grouped, whatever its name part. -/
def queryCaptures (decls : List ImportDecl) : List String :=
  (decls.map (fun d =>
    match d with
    | ImportDecl.single sp => [sp.path]
    | ImportDecl.grouped specs => specs.map ImportSpec.path)).flatten

theorem mem_insertSet {s : List String} {x y : String} :
    y ∈ insertSet s x ↔ y ∈ s ∨ y = x := by
  unfold insertSet
  by_cases h : x ∈ s
  · simp only [h, if_true]
    constructor
    · exact Or.inl
    · intro hy
      rcases hy with h1 | h1
      · exact h1
      · exact h1 ▸ h
  · simp [h]

theorem mem_extractImports_aux (captures : List String) :
    ∀ acc s, s ∈ captures.foldl (fun imports cap =>
        let importText := trimQuotes cap
        if strStartsWith importText gnoLandPfx then insertSet imports importText
        else imports) acc ↔
      s ∈ acc ∨ ∃ cap ∈ captures,
        trimQuotes cap = s ∧ strStartsWith s gnoLandPfx = true := by
  induction captures with
  | nil => simp
  | cons cap rest ih =>
    intro acc s
    simp only [List.foldl_cons]
    by_cases hp : strStartsWith (trimQuotes cap) gnoLandPfx = true
    · rw [if_pos hp]
      rw [ih (insertSet acc (trimQuotes cap)) s]
      constructor
      · intro h
        rcases h with h1 | h1
        · rcases mem_insertSet.mp h1 with h2 | h2
          · exact Or.inl h2
          · exact Or.inr ⟨cap, by simp, h2.symm, h2 ▸ hp⟩
        · rcases h1 with ⟨c, hc, ht, hpfx⟩
          exact Or.inr ⟨c, List.mem_cons_of_mem _ hc, ht, hpfx⟩
      · intro h
        rcases h with h1 | h1
        · exact Or.inl (mem_insertSet.mpr (Or.inl h1))
        · rcases h1 with ⟨c, hc, ht, hpfx⟩
          rcases List.mem_cons.mp hc with h2 | h2
          · exact Or.inl (mem_insertSet.mpr (Or.inr (h2 ▸ ht.symm)))
          · exact Or.inr ⟨c, h2, ht, hpfx⟩
    · rw [if_neg hp]
      rw [ih acc s]
      constructor
      · intro h
        rcases h with h1 | h1
        · exact Or.inl h1
        · rcases h1 with ⟨c, hc, ht, hpfx⟩
          exact Or.inr ⟨c, List.mem_cons_of_mem _ hc, ht, hpfx⟩
      · intro h
        rcases h with h1 | h1
        · exact Or.inl h1
        · rcases h1 with ⟨c, hc, ht, hpfx⟩
          rcases List.mem_cons.mp hc with h2 | h2
          · subst h2
            exact absurd (ht ▸ hpfx) hp
          · exact Or.inr ⟨c, h2, ht, hpfx⟩

theorem mem_extractImports (captures : List String) (s : String) :
    s ∈ extractImports captures ↔
      ∃ cap ∈ captures, trimQuotes cap = s ∧
        strStartsWith s gnoLandPfx = true := by
  rw [extractImports, mem_extractImports_aux captures [] s]
  simp

/-- C3: every member of the returned import set starts with the registry
prefix; a trimmed path that does not match the prefix never appears in the
set; and a matching path is included whatever the shape of its import
declaration: single or grouped, plain, aliased, or blank-named (the query
captures every spec's path literal and the filter reads only that text). -/
theorem c3_import_filtering (decls : List ImportDecl) :
    (∀ s ∈ extractImports (queryCaptures decls),
      strStartsWith s gnoLandPfx = true) ∧
    (∀ t, strStartsWith t gnoLandPfx = false →
      t ∉ extractImports (queryCaptures decls)) ∧
    (∀ d ∈ decls, ∀ sp : ImportSpec,
      (d = ImportDecl.single sp ∨
        ∃ specs, d = ImportDecl.grouped specs ∧ sp ∈ specs) →
      strStartsWith (trimQuotes sp.path) gnoLandPfx = true →
      trimQuotes sp.path ∈ extractImports (queryCaptures decls)) := by
  refine ⟨?_, ?_, ?_⟩
  · intro s hs
    exact ((mem_extractImports _ s).mp hs).choose_spec.2.2
  · intro t hpf hmem
    have := ((mem_extractImports _ t).mp hmem).choose_spec.2.2
    rw [hpf] at this
    cases this
  · intro d hd sp hform hpf
    have hcap : sp.path ∈ queryCaptures decls := by
      rw [queryCaptures]
      rw [List.mem_flatten]
      rcases hform with h1 | ⟨specs, h1, h2⟩
      · exact ⟨[sp.path], List.mem_map.mpr ⟨d, hd, by rw [h1]⟩, by simp⟩
      · exact ⟨specs.map ImportSpec.path, List.mem_map.mpr ⟨d, hd, by rw [h1]⟩,
          List.mem_map.mpr ⟨sp, h2, rfl⟩⟩
    exact (mem_extractImports _ _).mpr ⟨sp.path, hcap, rfl, hpf⟩

/-- Concrete import specs for the C3 witness: registry paths in plain and
aliased form, standard-library paths in blank and plain form. -/
def c3AvlSpec : ImportSpec :=
  { name := ImportSpecName.plain, path := "\"gno.land/p/demo/avl\"" }

def c3UfmtSpec : ImportSpec :=
  { name := ImportSpecName.aliased "ufmt", path := "\"gno.land/p/demo/ufmt\"" }

def c3StringsSpec : ImportSpec :=
  { name := ImportSpecName.blank, path := "\"strings\"" }

def c3FmtSpec : ImportSpec :=
  { name := ImportSpecName.plain, path := "\"fmt\"" }

/-- Concrete import declarations for the C3 witness: a single plain import of
a registry path, a group holding an aliased registry path and a blank-named
standard-library path, and a single plain standard-library path. -/
def c3Decls : List ImportDecl :=
  [ImportDecl.single c3AvlSpec,
   ImportDecl.grouped [c3UfmtSpec, c3StringsSpec],
   ImportDecl.single c3FmtSpec]

/-- C3 witness: on the concrete declarations the filter keeps exactly the two
registry imports, in both single and grouped, plain and aliased forms, and
excludes the standard-library paths. -/
theorem c3_import_filtering_witness :
    (∀ s ∈ extractImports (queryCaptures c3Decls),
      strStartsWith s gnoLandPfx = true) ∧
    ("fmt" ∉ extractImports (queryCaptures c3Decls)) ∧
    ("gno.land/p/demo/avl" ∈ extractImports (queryCaptures c3Decls)) ∧
    ("gno.land/p/demo/ufmt" ∈ extractImports (queryCaptures c3Decls)) := by
  have h := c3_import_filtering c3Decls
  refine ⟨h.1, ?_, ?_, ?_⟩
  · exact h.2.1 "fmt" (by decide)
  · exact h.2.2 (ImportDecl.single c3AvlSpec) (by decide) c3AvlSpec
      (Or.inl rfl) (by decide)
  · exact h.2.2 (ImportDecl.grouped [c3UfmtSpec, c3StringsSpec]) (by decide)
      c3UfmtSpec (Or.inr ⟨_, rfl, by decide⟩) (by decide)

/-! ## Dependency graph and deployment order (src/dependency.rs)

The package map handed to generate_deployment_order is a HashMap; its
enumeration order is arbitrary but fixed, and the graph maps record keys in
exactly that enumeration (insertion) order.  The map is modelled as the
association list of that enumeration; the claims quantify over it, so they
hold for every enumeration order. -/

/-- PackageDependency: declared package name and its import set, modelled as
a duplicate-free list.  The reserved floating-point instability field is
never read by graph construction or ordering and is omitted. -/
structure PackageDependency where
  name : String
  imports : List String
deriving DecidableEq

abbrev Pkgs := List (String × PackageDependency)

/-- DependencyGraph of src/dependency.rs: in-degree counts and adjacency
(dependents) lists, both IndexMaps in insertion order. -/
structure DependencyGraph where
  in_degree : List (String × Nat)
  adj : List (String × List String)
deriving DecidableEq

def keysOf (pkgs : Pkgs) : List String := pkgs.map Prod.fst

/-- HashMap::contains_key over the package map. -/
def containsKey (pkgs : Pkgs) (name : String) : Bool :=
  pkgs.any (fun p => p.1 = name)

/-- Inner pass of build_dependency_graph for one package: for every import
present in the package map, bump the importing package's in-degree and append
it to the imported package's dependents list. -/
def addEdges (pkgs : Pkgs) (g : DependencyGraph) (pkgName : String)
    (imports : List String) : DependencyGraph :=
  imports.foldl (fun g2 imp =>
    if containsKey pkgs imp then
      { in_degree := amodify g2.in_degree pkgName (fun d => d + 1)
        adj := amodify g2.adj imp (fun l => l ++ [pkgName]) }
    else g2) g

/-- build_dependency_graph: a zero-in-degree and empty-adjacency row for
every package in map order, then the edge pass over every package. -/
def buildDependencyGraph (pkgs : Pkgs) : DependencyGraph :=
  let init : DependencyGraph :=
    { in_degree := pkgs.map (fun p => (p.1, 0))
      adj := pkgs.map (fun p => (p.1, [])) }
  pkgs.foldl (fun g p => addEdges pkgs g p.1 p.2.imports) init

/-- Dependents pass of one TopoSort iteration: decrement each dependent's
stored in-degree and enqueue it the instant the stored value reaches zero.
(The invariants proved below show each decremented value is positive on every
graph built from a package map, so Nat subtraction mirrors the usize
decrement of the source.) -/
def processDependents (state : List (String × Nat) × List String) :
    List String → List (String × Nat) × List String
  | [] => state
  | dep :: rest =>
    let inDeg2 := amodify state.1 dep (fun d => d - 1)
    if alookup inDeg2 dep = some 0 then
      processDependents (inDeg2, state.2 ++ [dep]) rest
    else
      processDependents (inDeg2, state.2) rest

/-- The Kahn work loop of TopoSort::resolve with explicit fuel bounding the
iteration count.  Every node is enqueued at most once, so fuel equal to the
number of in_degree rows never runs out on a graph built from a package map
(proved below); the loop then ends exactly when the queue drains, as in the
source. -/
def resolveLoop (adj : List (String × List String)) :
    Nat → List (String × Nat) → List String → List String →
    List (String × Nat) × List String
  | 0, inDeg, _, order => (inDeg, order)
  | _ + 1, inDeg, [], order => (inDeg, order)
  | fuel + 1, inDeg, current :: rest, order =>
    match alookup adj current with
    | none => resolveLoop adj fuel inDeg rest (order ++ [current])
    | some dependents =>
      let st := processDependents (inDeg, rest) dependents
      resolveLoop adj fuel st.1 st.2 (order ++ [current])

/-- Trailing pass of TopoSort::resolve: append, in map insertion order, every
node whose final stored in-degree stayed positive and which the queue phase
did not emit. -/
def appendLeftovers (inDeg : List (String × Nat)) (order : List String) :
    List String :=
  inDeg.foldl (fun ord p =>
    if 0 < p.2 ∧ p.1 ∉ ord then ord ++ [p.1] else ord) order

/-- TopoSort::resolve: seed the queue with the zero-in-degree nodes in map
order, run the work loop, then append the leftover (cyclic) nodes. -/
def topoSortResolve (g : DependencyGraph) : List String :=
  let queue := (g.in_degree.filter (fun p => p.2 = 0)).map Prod.fst
  let res := resolveLoop g.adj g.in_degree.length g.in_degree queue []
  appendLeftovers res.1 res.2

/-- generate_deployment_order with the default TopoSort strategy. -/
def generateDeploymentOrder (pkgs : Pkgs) : List String :=
  topoSortResolve (buildDependencyGraph pkgs)

/-! Semantic views of the graph: import lists, in-neighbours, in-degrees and
the edge relation, all read off the package map. -/

/-- The import set recorded for a package key (empty for an absent key). -/
def importsOf (pkgs : Pkgs) (b : String) : List String :=
  match alookup pkgs b with
  | some pd => pd.imports
  | none => []

/-- In-neighbours of b: the imports of b that are themselves keys of the
map.  An edge a -> b means b imports a. -/
def inNbrs (pkgs : Pkgs) (b : String) : List String :=
  (importsOf pkgs b).filter (fun a => containsKey pkgs a)

/-- Graph in-degree of b. -/
def indeg (pkgs : Pkgs) (b : String) : Nat := (inNbrs pkgs b).length

/-- How many in-neighbours of b occur in the emitted order. -/
def decCount (pkgs : Pkgs) (order : List String) (b : String) : Nat :=
  ((inNbrs pkgs b).filter (fun a => a ∈ order)).length

/-- Edge relation of the induced graph: a -> b when b's import set contains a
and a is a key of the map (b must be a key for its imports to be nonempty). -/
def Edge (pkgs : Pkgs) (a b : String) : Prop :=
  containsKey pkgs a = true ∧ a ∈ importsOf pkgs b

/-- The dependents list adj records for a key a: every importing package in
map order. -/
def depList (pkgs : Pkgs) (a : String) : List String :=
  (pkgs.filter (fun p => a ∈ p.2.imports)).map Prod.fst

instance (pkgs : Pkgs) (a b : String) : Decidable (Edge pkgs a b) := by
  unfold Edge
  infer_instance

theorem containsKey_iff (pkgs : Pkgs) (a : String) :
    containsKey pkgs a = true ↔ a ∈ keysOf pkgs := by
  simp [containsKey, keysOf, List.any_eq_true, List.mem_map]

theorem map_fst_amodify {α : Type} (l : List (String × α)) (key : String)
    (f : α → α) : (amodify l key f).map Prod.fst = l.map Prod.fst := by
  induction l with
  | nil => rfl
  | cons p rest ih =>
    by_cases h : p.1 = key
    · simp [amodify, h]
    · simp [amodify, h, ih]

theorem alookup_amodify_self {α : Type} (l : List (String × α)) (key : String)
    (f : α → α) : alookup (amodify l key f) key = (alookup l key).map f := by
  induction l with
  | nil => simp [amodify, alookup]
  | cons p rest ih =>
    by_cases h : p.1 = key
    · simp [amodify, alookup, h]
    · simp [amodify, alookup, h, ih]

theorem alookup_amodify_ne {α : Type} (l : List (String × α)) (key m : String)
    (f : α → α) (hne : m ≠ key) :
    alookup (amodify l key f) m = alookup l m := by
  induction l with
  | nil => simp [amodify]
  | cons p rest ih =>
    by_cases h : p.1 = key
    · subst h
      have : ¬ (p.1 = m) := fun hc => hne (hc ▸ rfl)
      simp [amodify, alookup, this]
    · by_cases hm : p.1 = m
      · simp [amodify, alookup, h, hm, hne]
      · simp [amodify, alookup, h, hm, ih]

theorem alookup_of_mem_nodup {α : Type} {l : List (String × α)}
    {p : String × α} (hnd : (l.map Prod.fst).Nodup) (hp : p ∈ l) :
    alookup l p.1 = some p.2 := by
  induction l with
  | nil => cases hp
  | cons q rest ih =>
    simp only [List.map_cons, List.nodup_cons] at hnd
    rcases List.mem_cons.mp hp with h1 | h1
    · subst h1
      simp [alookup]
    · have hne : q.1 ≠ p.1 := by
        intro hc
        exact hnd.1 (hc ▸ List.mem_map.mpr ⟨p, h1, rfl⟩)
      simp [alookup, hne, ih hnd.2 h1]

theorem addEdges_cons (pkgs : Pkgs) (g : DependencyGraph) (n i : String)
    (rest : List String) :
    addEdges pkgs g n (i :: rest) =
      addEdges pkgs
        (if containsKey pkgs i then
          { in_degree := amodify g.in_degree n (fun d => d + 1)
            adj := amodify g.adj i (fun l => l ++ [n]) }
        else g) n rest := by
  by_cases hc : containsKey pkgs i
  · simp [addEdges, hc]
  · simp [addEdges, hc]

theorem addEdges_keys (pkgs : Pkgs) (n : String) :
    ∀ (imps : List String) (g : DependencyGraph),
    (addEdges pkgs g n imps).in_degree.map Prod.fst = g.in_degree.map Prod.fst ∧
    (addEdges pkgs g n imps).adj.map Prod.fst = g.adj.map Prod.fst := by
  intro imps
  induction imps with
  | nil => intro g; exact ⟨rfl, rfl⟩
  | cons i rest ih =>
    intro g
    rw [addEdges_cons]
    by_cases hc : containsKey pkgs i
    · rw [if_pos hc]
      rcases ih _ with ⟨h1, h2⟩
      rw [h1, h2]
      exact ⟨map_fst_amodify _ _ _, map_fst_amodify _ _ _⟩
    · rw [if_neg hc]
      exact ih g

theorem addEdges_in_degree_lookup (pkgs : Pkgs) (n : String) :
    ∀ (imps : List String) (g : DependencyGraph) (m : String),
    alookup (addEdges pkgs g n imps).in_degree m =
      if m = n then
        (alookup g.in_degree m).map
          (fun d => d + (imps.filter (fun i => containsKey pkgs i)).length)
      else alookup g.in_degree m := by
  intro imps
  induction imps with
  | nil =>
    intro g m
    by_cases h : m = n <;> simp [addEdges, h]
  | cons i rest ih =>
    intro g m
    rw [addEdges_cons]
    by_cases hc : containsKey pkgs i
    · rw [if_pos hc, ih]
      by_cases hm : m = n
      · subst hm
        rw [if_pos rfl, if_pos rfl]
        simp only [alookup_amodify_self, Option.map_map]
        cases alookup g.in_degree m with
        | none => simp
        | some d =>
          simp only [Option.map_some', Function.comp]
          rw [List.filter_cons_of_pos (by simpa using hc)]
          simp only [List.length_cons]
          congr 1
          omega
      · rw [if_neg hm, if_neg hm]
        exact alookup_amodify_ne _ _ _ _ hm
    · rw [if_neg hc, ih]
      by_cases hm : m = n
      · subst hm
        rw [if_pos rfl, if_pos rfl,
          List.filter_cons_of_neg (by simpa using hc)]
      · rw [if_neg hm, if_neg hm]

theorem addEdges_adj_lookup (pkgs : Pkgs) (n : String) :
    ∀ (imps : List String) (g : DependencyGraph) (a : String), imps.Nodup →
    alookup (addEdges pkgs g n imps).adj a =
      if a ∈ imps ∧ containsKey pkgs a = true then
        (alookup g.adj a).map (fun l => l ++ [n])
      else alookup g.adj a := by
  intro imps
  induction imps with
  | nil =>
    intro g a _
    simp [addEdges]
  | cons i rest ih =>
    intro g a hnd
    rcases List.nodup_cons.mp hnd with ⟨hi, hrest⟩
    rw [addEdges_cons]
    by_cases hc : containsKey pkgs i
    · rw [if_pos hc, ih _ _ hrest]
      by_cases hai : a = i
      · subst hai
        have har : a ∉ rest := hi
        rw [if_neg (by intro hcon; exact har hcon.1)]
        rw [if_pos ⟨List.mem_cons_self a rest, hc⟩]
        simp [alookup_amodify_self]
      · by_cases hcond : a ∈ rest ∧ containsKey pkgs a = true
        · rw [if_pos hcond, if_pos ⟨List.mem_cons_of_mem _ hcond.1, hcond.2⟩]
          rw [alookup_amodify_ne _ _ _ _ (fun hc2 => hai hc2)]
        · rw [if_neg hcond]
          rw [if_neg (by
            intro hcon
            rcases List.mem_cons.mp hcon.1 with h1 | h1
            · exact hai h1
            · exact hcond ⟨h1, hcon.2⟩)]
          rw [alookup_amodify_ne _ _ _ _ (fun hc2 => hai hc2)]
    · rw [if_neg hc, ih _ _ hrest]
      by_cases hcond : a ∈ rest ∧ containsKey pkgs a = true
      · rw [if_pos hcond, if_pos ⟨List.mem_cons_of_mem _ hcond.1, hcond.2⟩]
      · rw [if_neg hcond]
        rw [if_neg (by
          intro hcon
          rcases List.mem_cons.mp hcon.1 with h1 | h1
          · subst h1
            exact hc hcon.2
          · exact hcond ⟨h1, hcon.2⟩)]

theorem alookup_map_const {α β : Type} (l : List (String × α)) (c : β)
    (key : String) :
    alookup (l.map (fun p => (p.1, c))) key = (alookup l key).map (fun _ => c) := by
  induction l with
  | nil => simp [alookup]
  | cons p rest ih =>
    by_cases h : p.1 = key
    · simp [alookup, h]
    · simp [alookup, h, ih]

theorem mem_keys_alookup_isSome {α : Type} {l : List (String × α)} {b : String}
    (h : b ∈ l.map Prod.fst) : ∃ v, alookup l b = some v := by
  induction l with
  | nil => simp at h
  | cons p rest ih =>
    by_cases hb : p.1 = b
    · exact ⟨p.2, by simp [alookup, hb]⟩
    · have h2 : b ∈ rest.map Prod.fst := by
        simp only [List.map_cons, List.mem_cons] at h
        rcases h with h1 | h1
        · exact absurd h1.symm hb
        · exact h1
      rcases ih h2 with ⟨v, hv⟩
      exact ⟨v, by simp [alookup, hb, hv]⟩

theorem build_fold_inv (pkgs : Pkgs) (HK : (keysOf pkgs).Nodup)
    (HI : ∀ p ∈ pkgs, p.2.imports.Nodup) :
    ∀ (todo dne : Pkgs) (g : DependencyGraph),
      pkgs = dne ++ todo →
      g.in_degree.map Prod.fst = keysOf pkgs →
      g.adj.map Prod.fst = keysOf pkgs →
      (∀ b, alookup g.in_degree b = (alookup pkgs b).map
        (fun _ => if b ∈ keysOf dne then indeg pkgs b else 0)) →
      (∀ a, alookup g.adj a = (alookup pkgs a).map
        (fun _ => (dne.filter (fun q => a ∈ q.2.imports)).map Prod.fst)) →
      ((todo.foldl (fun g2 p => addEdges pkgs g2 p.1 p.2.imports) g).in_degree.map
          Prod.fst = keysOf pkgs) ∧
      ((todo.foldl (fun g2 p => addEdges pkgs g2 p.1 p.2.imports) g).adj.map
          Prod.fst = keysOf pkgs) ∧
      (∀ b, alookup (todo.foldl (fun g2 p =>
          addEdges pkgs g2 p.1 p.2.imports) g).in_degree b
        = (alookup pkgs b).map (fun _ => indeg pkgs b)) ∧
      (∀ a, alookup (todo.foldl (fun g2 p =>
          addEdges pkgs g2 p.1 p.2.imports) g).adj a
        = (alookup pkgs a).map (fun _ => depList pkgs a)) := by
  intro todo
  induction todo with
  | nil =>
    intro dne g hsplit hk1 hk2 hdeg hadj
    rw [List.append_nil] at hsplit
    subst hsplit
    simp only [List.foldl_nil]
    refine ⟨hk1, hk2, ?_, ?_⟩
    · intro b
      rw [hdeg b]
      cases hb : alookup pkgs b with
      | none => simp
      | some pd =>
        have hbk : b ∈ keysOf pkgs := alookup_mem_keys hb
        simp [hbk]
    · intro a
      rw [hadj a]
      rfl
  | cons p todo2 ih =>
    intro dne g hsplit hk1 hk2 hdeg hadj
    simp only [List.foldl_cons]
    have hp_mem : p ∈ pkgs := by
      rw [hsplit]
      exact List.mem_append.mpr (Or.inr (List.mem_cons_self _ _))
    have hlookup_p : alookup pkgs p.1 = some p.2 := alookup_of_mem_nodup HK hp_mem
    have hp_imports_nodup : p.2.imports.Nodup := HI p hp_mem
    have hkeys_split : keysOf pkgs = keysOf dne ++ p.1 :: keysOf todo2 := by
      rw [hsplit]
      simp [keysOf]
    have hp_not_done : p.1 ∉ keysOf dne := by
      intro hmem
      have h2 := HK
      rw [hkeys_split] at h2
      rcases List.nodup_append.mp h2 with ⟨_, _, hdisj⟩
      exact hdisj hmem (List.mem_cons_self _ _)
    have hcount : (p.2.imports.filter (fun i => containsKey pkgs i)).length
        = indeg pkgs p.1 := by
      unfold indeg inNbrs importsOf
      rw [hlookup_p]
    refine ih (dne ++ [p]) (addEdges pkgs g p.1 p.2.imports)
      (by rw [hsplit]; simp) ?_ ?_ ?_ ?_
    · rw [(addEdges_keys pkgs p.1 p.2.imports g).1, hk1]
    · rw [(addEdges_keys pkgs p.1 p.2.imports g).2, hk2]
    · intro b
      rw [addEdges_in_degree_lookup]
      by_cases hb : b = p.1
      · subst hb
        rw [if_pos rfl, hdeg p.1, hlookup_p]
        have hbk2 : p.1 ∈ keysOf (dne ++ [p]) := by
          simp [keysOf]
        simp [hp_not_done, hbk2, hcount]
      · rw [if_neg hb, hdeg b]
        have : b ∈ keysOf (dne ++ [p]) ↔ b ∈ keysOf dne := by
          simp only [keysOf, List.map_append, List.mem_append]
          constructor
          · intro h
            rcases h with h1 | h1
            · exact h1
            · simp at h1
              exact absurd h1 hb
          · exact Or.inl
        cases alookup pkgs b <;> simp [this]
    · intro a
      rw [addEdges_adj_lookup pkgs p.1 p.2.imports g a hp_imports_nodup]
      have hfsplit : ((dne ++ [p]).filter (fun q => a ∈ q.2.imports)).map Prod.fst
          = (dne.filter (fun q => a ∈ q.2.imports)).map Prod.fst ++
            (if a ∈ p.2.imports then [p.1] else []) := by
        rw [List.filter_append]
        by_cases hap : a ∈ p.2.imports
        · simp [hap]
        · simp [hap]
      by_cases hcond : a ∈ p.2.imports ∧ containsKey pkgs a = true
      · rw [if_pos hcond, hadj a, hfsplit]
        cases hpa : alookup pkgs a with
        | none => simp
        | some pd => simp [hcond.1]
      · rw [if_neg hcond, hadj a, hfsplit]
        by_cases hap : a ∈ p.2.imports
        · have hck : ¬ containsKey pkgs a = true := fun hc => hcond ⟨hap, hc⟩
          have hpa : alookup pkgs a = none := by
            apply alookup_not_mem_keys
            intro hmem
            exact hck ((containsKey_iff pkgs a).mpr hmem)
          rw [hpa]
          simp
        · simp [hap]

theorem build_char (pkgs : Pkgs) (HK : (keysOf pkgs).Nodup)
    (HI : ∀ p ∈ pkgs, p.2.imports.Nodup) :
    ((buildDependencyGraph pkgs).in_degree.map Prod.fst = keysOf pkgs) ∧
    ((buildDependencyGraph pkgs).adj.map Prod.fst = keysOf pkgs) ∧
    (∀ b, alookup (buildDependencyGraph pkgs).in_degree b
      = (alookup pkgs b).map (fun _ => indeg pkgs b)) ∧
    (∀ a, alookup (buildDependencyGraph pkgs).adj a
      = (alookup pkgs a).map (fun _ => depList pkgs a)) := by
  have hinit1 : (pkgs.map (fun p => (p.1, (0 : Nat)))).map Prod.fst = keysOf pkgs := by
    simp [keysOf]
  have hinit2 : (pkgs.map (fun p => (p.1, ([] : List String)))).map Prod.fst
      = keysOf pkgs := by
    simp [keysOf]
  have h := build_fold_inv pkgs HK HI pkgs []
    { in_degree := pkgs.map (fun p => (p.1, 0))
      adj := pkgs.map (fun p => (p.1, [])) }
    (by simp) hinit1 hinit2
    (by
      intro b
      rw [alookup_map_const]
      simp [keysOf])
    (by
      intro a
      rw [alookup_map_const]
      simp)
  exact h

theorem alookup_mem {α : Type} {l : List (String × α)} {key : String} {v : α}
    (h : alookup l key = some v) : (key, v) ∈ l := by
  induction l with
  | nil => simp [alookup] at h
  | cons p rest ih =>
    by_cases hk : p.1 = key
    · simp only [alookup, hk, if_true, Option.some.injEq] at h
      subst h
      subst hk
      exact List.mem_cons_self _ _
    · simp only [alookup, hk, if_false] at h
      exact List.mem_cons_of_mem _ (ih h)

theorem importsOf_nodup (pkgs : Pkgs) (HI : ∀ p ∈ pkgs, p.2.imports.Nodup)
    (b : String) : (importsOf pkgs b).Nodup := by
  unfold importsOf
  cases hb : alookup pkgs b with
  | none => simp
  | some pd => exact HI (b, pd) (alookup_mem hb)

theorem inNbrs_nodup (pkgs : Pkgs) (HI : ∀ p ∈ pkgs, p.2.imports.Nodup)
    (b : String) : (inNbrs pkgs b).Nodup :=
  (importsOf_nodup pkgs HI b).filter _

theorem mem_inNbrs (pkgs : Pkgs) (a b : String) :
    a ∈ inNbrs pkgs b ↔ Edge pkgs a b := by
  unfold inNbrs Edge
  rw [List.mem_filter]
  tauto

theorem mem_depList (pkgs : Pkgs) (HK : (keysOf pkgs).Nodup) (a b : String) :
    b ∈ depList pkgs a ↔ b ∈ keysOf pkgs ∧ a ∈ importsOf pkgs b := by
  unfold depList
  rw [List.mem_map]
  constructor
  · rintro ⟨p, hp, rfl⟩
    rcases List.mem_filter.mp hp with ⟨hpm, hpa⟩
    refine ⟨List.mem_map.mpr ⟨p, hpm, rfl⟩, ?_⟩
    unfold importsOf
    rw [alookup_of_mem_nodup HK hpm]
    simpa using hpa
  · rintro ⟨hbk, hba⟩
    rcases mem_keys_alookup_isSome hbk with ⟨pd, hpd⟩
    refine ⟨(b, pd), List.mem_filter.mpr ⟨alookup_mem hpd, ?_⟩, rfl⟩
    unfold importsOf at hba
    rw [hpd] at hba
    simpa using hba

theorem mem_depList_edge (pkgs : Pkgs) (HK : (keysOf pkgs).Nodup)
    {a : String} (ha : a ∈ keysOf pkgs) (b : String) :
    b ∈ depList pkgs a ↔ Edge pkgs a b := by
  rw [mem_depList pkgs HK a b]
  unfold Edge
  constructor
  · rintro ⟨hbk, hba⟩
    exact ⟨(containsKey_iff pkgs a).mpr ha, hba⟩
  · rintro ⟨hak, hba⟩
    have hbk : b ∈ keysOf pkgs := by
      unfold importsOf at hba
      cases hb : alookup pkgs b with
      | none => rw [hb] at hba; simp at hba
      | some pd => exact alookup_mem_keys hb
    exact ⟨hbk, hba⟩

theorem depList_nodup (pkgs : Pkgs) (HK : (keysOf pkgs).Nodup) (a : String) :
    (depList pkgs a).Nodup := by
  unfold depList
  have hsub : (pkgs.filter (fun p => a ∈ p.2.imports)).map Prod.fst |>.Sublist
      (pkgs.map Prod.fst) := (List.filter_sublist _).map Prod.fst
  exact HK.sublist hsub

theorem edge_mem_keys {pkgs : Pkgs} {a b : String} (h : Edge pkgs a b) :
    a ∈ keysOf pkgs ∧ b ∈ keysOf pkgs := by
  rcases h with ⟨hak, hab⟩
  refine ⟨(containsKey_iff pkgs a).mp hak, ?_⟩
  unfold importsOf at hab
  cases hb : alookup pkgs b with
  | none => rw [hb] at hab; simp at hab
  | some pd => exact alookup_mem_keys hb

theorem length_filter_eq_iff {α : Type} (l : List α) (p : α → Bool) :
    (l.filter p).length = l.length ↔ ∀ x ∈ l, p x = true := by
  constructor
  · intro h
    have heq : l.filter p = l := (List.filter_sublist l).eq_of_length h
    intro x hx
    exact List.of_mem_filter (heq.symm ▸ hx)
  · intro h
    rw [List.filter_eq_self.mpr h]

theorem decCount_le_indeg (pkgs : Pkgs) (order : List String) (b : String) :
    decCount pkgs order b ≤ indeg pkgs b :=
  List.length_filter_le _ _

theorem decCount_eq_indeg_iff (pkgs : Pkgs) (order : List String) (b : String) :
    decCount pkgs order b = indeg pkgs b ↔
      ∀ a ∈ inNbrs pkgs b, a ∈ order := by
  unfold decCount indeg
  rw [length_filter_eq_iff]
  simp

theorem length_filter_mem_snoc (l order : List String) (a : String)
    (ha : a ∉ order) (hl : l.Nodup) :
    (l.filter (fun x => x ∈ order ++ [a])).length =
      (l.filter (fun x => x ∈ order)).length + (if a ∈ l then 1 else 0) := by
  induction l with
  | nil => simp
  | cons x xs ih =>
    rcases List.nodup_cons.mp hl with ⟨hx, hxs⟩
    by_cases hxa : x = a
    · subst hxa
      rw [List.filter_cons_of_pos (by simp), List.filter_cons_of_neg (by simpa using ha)]
      rw [if_pos (List.mem_cons_self _ _)]
      simp only [List.length_cons]
      rw [ih hxs, if_neg hx]
    · have hiff : (x ∈ order ++ [a]) ↔ (x ∈ order) := by
        simp only [List.mem_append, List.mem_singleton]
        constructor
        · intro h
          rcases h with h1 | h1
          · exact h1
          · exact absurd h1 hxa
        · exact Or.inl
      have hmem : (a ∈ x :: xs) ↔ (a ∈ xs) := by
        simp only [List.mem_cons]
        constructor
        · intro h
          rcases h with h1 | h1
          · exact absurd h1.symm hxa
          · exact h1
        · exact Or.inr
      by_cases hxo : x ∈ order
      · rw [List.filter_cons_of_pos (by simp [hiff, hxo]),
          List.filter_cons_of_pos (by simpa using hxo)]
        simp only [List.length_cons]
        rw [ih hxs]
        simp only [hmem]
        omega
      · rw [List.filter_cons_of_neg (by simp [hiff, hxo]),
          List.filter_cons_of_neg (by simpa using hxo)]
        rw [ih hxs]
        simp only [hmem]

theorem decCount_snoc (pkgs : Pkgs) (HI : ∀ p ∈ pkgs, p.2.imports.Nodup)
    (order : List String) (a b : String) (ha : a ∉ order) :
    decCount pkgs (order ++ [a]) b =
      decCount pkgs order b + (if Edge pkgs a b then 1 else 0) := by
  unfold decCount
  rw [length_filter_mem_snoc _ _ _ ha (inNbrs_nodup pkgs HI b)]
  congr 1
  by_cases he : Edge pkgs a b
  · rw [if_pos ((mem_inNbrs pkgs a b).mpr he), if_pos he]
  · rw [if_neg (fun hc => he ((mem_inNbrs pkgs a b).mp hc)), if_neg he]

theorem processDependents_spec :
    ∀ (deps : List String) (inDeg : List (String × Nat)) (queue : List String),
      deps.Nodup →
      ((processDependents (inDeg, queue) deps).1.map Prod.fst
        = inDeg.map Prod.fst) ∧
      (∀ m, alookup (processDependents (inDeg, queue) deps).1 m =
        if m ∈ deps then (alookup inDeg m).map (fun d => d - 1)
        else alookup inDeg m) ∧
      ((processDependents (inDeg, queue) deps).2 =
        queue ++ deps.filter
          (fun dep => (alookup inDeg dep).map (fun d => d - 1) = some 0)) := by
  intro deps
  induction deps with
  | nil =>
    intro inDeg queue _
    refine ⟨rfl, fun m => by simp [processDependents], by simp [processDependents]⟩
  | cons dep rest ih =>
    intro inDeg queue hnd
    rcases List.nodup_cons.mp hnd with ⟨hdep, hrest⟩
    have hcond : alookup (amodify inDeg dep (fun d => d - 1)) dep
        = (alookup inDeg dep).map (fun d => d - 1) := alookup_amodify_self _ _ _
    have hstep : processDependents (inDeg, queue) (dep :: rest)
        = processDependents (amodify inDeg dep (fun d => d - 1),
            queue ++ (if (alookup inDeg dep).map (fun d => d - 1) = some 0
              then [dep] else [])) rest := by
      by_cases hc : (alookup inDeg dep).map (fun d => d - 1) = some 0
      · rw [if_pos hc]
        show (if alookup (amodify inDeg dep (fun d => d - 1)) dep = some 0 then
            processDependents (amodify inDeg dep (fun d => d - 1), queue ++ [dep]) rest
          else processDependents (amodify inDeg dep (fun d => d - 1), queue) rest)
          = _
        rw [if_pos (hcond.trans hc)]
      · rw [if_neg hc]
        show (if alookup (amodify inDeg dep (fun d => d - 1)) dep = some 0 then
            processDependents (amodify inDeg dep (fun d => d - 1), queue ++ [dep]) rest
          else processDependents (amodify inDeg dep (fun d => d - 1), queue) rest)
          = _
        rw [if_neg (fun h => hc (hcond.symm.trans h))]
        rw [List.append_nil]
    rw [hstep]
    rcases ih (amodify inDeg dep (fun d => d - 1))
      (queue ++ (if (alookup inDeg dep).map (fun d => d - 1) = some 0
        then [dep] else [])) hrest with ⟨hk, hlook, hq⟩
    refine ⟨by rw [hk, map_fst_amodify], ?_, ?_⟩
    · intro m
      rw [hlook m]
      by_cases hm : m ∈ rest
      · rw [if_pos hm, if_pos (List.mem_cons_of_mem _ hm)]
        have hne : m ≠ dep := fun hc => hdep (hc ▸ hm)
        rw [alookup_amodify_ne _ _ _ _ hne]
      · rw [if_neg hm]
        by_cases hmd : m = dep
        · subst hmd
          rw [if_pos (List.mem_cons_self _ _), hcond]
        · rw [if_neg (by
            intro hc
            rcases List.mem_cons.mp hc with h1 | h1
            · exact hmd h1
            · exact hm h1)]
          exact alookup_amodify_ne _ _ _ _ hmd
    · rw [hq]
      have hfilter : rest.filter (fun d2 =>
          (alookup (amodify inDeg dep (fun d => d - 1)) d2).map (fun d => d - 1)
            = some 0)
          = rest.filter (fun d2 =>
          (alookup inDeg d2).map (fun d => d - 1) = some 0) := by
        apply List.filter_congr
        intro d2 hd2
        have hne : d2 ≠ dep := fun hc => hdep (hc ▸ hd2)
        rw [alookup_amodify_ne _ _ _ _ hne]
      rw [hfilter, List.filter_cons]
      by_cases hc : (alookup inDeg dep).map (fun d => d - 1) = some 0
      · simp [hc]
      · simp [hc]

/-- Loop invariant of the Kahn phase of TopoSort::resolve on the graph built
from a package map: the stored in-degree of every key is its graph in-degree
minus the number of its in-neighbours already emitted; order and queue are
duplicate-free disjoint key lists; a key has been reached (emitted or queued)
exactly when all its in-neighbours are emitted; and the emitted order already
respects every edge. -/
structure KahnInv (pkgs : Pkgs) (inDeg : List (String × Nat))
    (queue order : List String) : Prop where
  keys_eq : inDeg.map Prod.fst = keysOf pkgs
  lookup_eq : ∀ b ∈ keysOf pkgs,
    alookup inDeg b = some (indeg pkgs b - decCount pkgs order b)
  order_nodup : order.Nodup
  queue_nodup : queue.Nodup
  order_keys : ∀ x ∈ order, x ∈ keysOf pkgs
  queue_keys : ∀ x ∈ queue, x ∈ keysOf pkgs
  disj : ∀ x, x ∈ order → x ∈ queue → False
  reached_iff : ∀ x ∈ keysOf pkgs,
    (x ∈ order ∨ x ∈ queue) ↔ decCount pkgs order x = indeg pkgs x
  topo : ∀ a b, Edge pkgs a b → b ∈ order →
    a ∈ order ∧ order.indexOf a < order.indexOf b

theorem kahn_step (pkgs : Pkgs) (HK : (keysOf pkgs).Nodup)
    (HI : ∀ p ∈ pkgs, p.2.imports.Nodup)
    (inDeg : List (String × Nat)) (a : String) (rest order : List String)
    (inv : KahnInv pkgs inDeg (a :: rest) order) :
    KahnInv pkgs (processDependents (inDeg, rest) (depList pkgs a)).1
      (processDependents (inDeg, rest) (depList pkgs a)).2 (order ++ [a]) := by
  have ha_key : a ∈ keysOf pkgs := inv.queue_keys a (List.mem_cons_self _ _)
  have ha_not_order : a ∉ order := fun h => inv.disj a h (List.mem_cons_self _ _)
  have ha_not_rest : a ∉ rest := (List.nodup_cons.mp inv.queue_nodup).1
  have hrest_nodup := (List.nodup_cons.mp inv.queue_nodup).2
  have hdec_a : decCount pkgs order a = indeg pkgs a :=
    (inv.reached_iff a ha_key).mp (Or.inr (List.mem_cons_self _ _))
  have hnbrs_a : ∀ A ∈ inNbrs pkgs a, A ∈ order :=
    (decCount_eq_indeg_iff pkgs order a).mp hdec_a
  have hno_self : ¬ Edge pkgs a a := fun he =>
    ha_not_order (hnbrs_a a ((mem_inNbrs pkgs a a).mpr he))
  have hdeps_nodup : (depList pkgs a).Nodup := depList_nodup pkgs HK a
  have hdeps_edge : ∀ b, b ∈ depList pkgs a ↔ Edge pkgs a b := fun b =>
    mem_depList_edge pkgs HK ha_key b
  have hdeps_keys : ∀ b ∈ depList pkgs a, b ∈ keysOf pkgs := fun b hb =>
    (edge_mem_keys ((hdeps_edge b).mp hb)).2
  rcases processDependents_spec (depList pkgs a) inDeg rest hdeps_nodup with
    ⟨hPk, hPl, hPq⟩
  have hdec2 : ∀ b, decCount pkgs (order ++ [a]) b
      = decCount pkgs order b + (if Edge pkgs a b then 1 else 0) :=
    fun b => decCount_snoc pkgs HI order a b ha_not_order
  have hstrict : ∀ b ∈ depList pkgs a,
      decCount pkgs order b < indeg pkgs b := by
    intro b hb
    refine Nat.lt_of_le_of_ne (decCount_le_indeg pkgs order b) ?_
    intro heq
    exact ha_not_order ((decCount_eq_indeg_iff pkgs order b).mp heq a
      ((mem_inNbrs pkgs a b).mpr ((hdeps_edge b).mp hb)))
  have hcond : ∀ b ∈ depList pkgs a,
      ((alookup inDeg b).map (fun d => d - 1) = some 0
        ↔ decCount pkgs (order ++ [a]) b = indeg pkgs b) := by
    intro b hb
    rw [inv.lookup_eq b (hdeps_keys b hb)]
    have hs := hstrict b hb
    rw [hdec2 b, if_pos ((hdeps_edge b).mp hb)]
    simp only [Option.map_some', Option.some.injEq]
    omega
  have hqmem : ∀ x, x ∈ (processDependents (inDeg, rest) (depList pkgs a)).2
      ↔ x ∈ rest ∨ (x ∈ depList pkgs a ∧
        decCount pkgs (order ++ [a]) x = indeg pkgs x) := by
    intro x
    rw [hPq, List.mem_append, List.mem_filter]
    constructor
    · intro h
      rcases h with h1 | ⟨h1, h2⟩
      · exact Or.inl h1
      · exact Or.inr ⟨h1, (hcond x h1).mp (by simpa using h2)⟩
    · intro h
      rcases h with h1 | ⟨h1, h2⟩
      · exact Or.inl h1
      · exact Or.inr ⟨h1, by simpa using (hcond x h1).mpr h2⟩
  have hreached_old : ∀ x ∈ keysOf pkgs,
      (x ∈ order ∨ x = a ∨ x ∈ rest) ↔
        decCount pkgs order x = indeg pkgs x := by
    intro x hx
    rw [← inv.reached_iff x hx]
    simp [List.mem_cons]
  refine ⟨?_, ?_, ?_, ?_, ?_, ?_, ?_, ?_, ?_⟩
  · rw [hPk, inv.keys_eq]
  · intro b hb
    rw [hPl b]
    by_cases hbd : b ∈ depList pkgs a
    · rw [if_pos hbd, inv.lookup_eq b hb, hdec2 b,
        if_pos ((hdeps_edge b).mp hbd)]
      simp only [Option.map_some', Option.some.injEq]
      omega
    · rw [if_neg hbd, inv.lookup_eq b hb, hdec2 b,
        if_neg (fun he => hbd ((hdeps_edge b).mpr he))]
      simp
  · refine List.nodup_append.mpr ⟨inv.order_nodup, List.nodup_singleton a, ?_⟩
    intro x hx hxa
    rw [List.mem_singleton] at hxa
    exact ha_not_order (hxa ▸ hx)
  · rw [hPq]
    refine List.nodup_append.mpr ⟨hrest_nodup, hdeps_nodup.filter _, ?_⟩
    intro x hx hxf
    have hxd := (List.mem_filter.mp hxf).1
    have hxk : x ∈ keysOf pkgs := hdeps_keys x hxd
    have h1 : decCount pkgs order x = indeg pkgs x :=
      (hreached_old x hxk).mp (Or.inr (Or.inr hx))
    exact absurd h1 (Nat.ne_of_lt (hstrict x hxd))
  · intro x hx
    rcases List.mem_append.mp hx with h | h
    · exact inv.order_keys x h
    · rw [List.mem_singleton] at h
      exact h ▸ ha_key
  · intro x hx
    rcases (hqmem x).mp hx with h | ⟨h, _⟩
    · exact inv.queue_keys x (List.mem_cons_of_mem _ h)
    · exact hdeps_keys x h
  · intro x hxo hxq
    have hxk : x ∈ keysOf pkgs := by
      rcases List.mem_append.mp hxo with h | h
      · exact inv.order_keys x h
      · rw [List.mem_singleton] at h
        exact h ▸ ha_key
    rcases (hqmem x).mp hxq with h | ⟨h, _⟩
    · rcases List.mem_append.mp hxo with h2 | h2
      · exact inv.disj x h2 (List.mem_cons_of_mem _ h)
      · rw [List.mem_singleton] at h2
        exact ha_not_rest (h2 ▸ h)
    · rcases List.mem_append.mp hxo with h2 | h2
      · exact absurd ((hreached_old x hxk).mp (Or.inl h2))
          (Nat.ne_of_lt (hstrict x h))
      · rw [List.mem_singleton] at h2
        have he : Edge pkgs a x := (hdeps_edge x).mp h
        rw [h2] at he
        exact hno_self he
  · intro x hx
    constructor
    · intro h
      rcases h with h1 | h1
      · rcases List.mem_append.mp h1 with h2 | h2
        · have hold : decCount pkgs order x = indeg pkgs x :=
            (hreached_old x hx).mp (Or.inl h2)
          have hle := decCount_le_indeg pkgs (order ++ [a]) x
          rw [hdec2 x] at hle ⊢
          omega
        · rw [List.mem_singleton] at h2
          subst h2
          rw [hdec2 x, if_neg hno_self]
          simpa using hdec_a
      · rcases (hqmem x).mp h1 with h2 | ⟨_, h2⟩
        · have hold : decCount pkgs order x = indeg pkgs x :=
            (hreached_old x hx).mp (Or.inr (Or.inr h2))
          have hle := decCount_le_indeg pkgs (order ++ [a]) x
          rw [hdec2 x] at hle ⊢
          omega
        · exact h2
    · intro hiq
      by_cases he : Edge pkgs a x
      · exact Or.inr ((hqmem x).mpr (Or.inr ⟨(hdeps_edge x).mpr he, hiq⟩))
      · have hold : decCount pkgs order x = indeg pkgs x := by
          rw [hdec2 x, if_neg he] at hiq
          simpa using hiq
        rcases (hreached_old x hx).mpr hold with h1 | h1 | h1
        · exact Or.inl (List.mem_append.mpr (Or.inl h1))
        · exact Or.inl (List.mem_append.mpr (Or.inr (by simp [h1])))
        · exact Or.inr ((hqmem x).mpr (Or.inl h1))
  · intro A B hAB hBo
    rcases List.mem_append.mp hBo with hB1 | hB1
    · rcases inv.topo A B hAB hB1 with ⟨hAo, hidx⟩
      refine ⟨List.mem_append.mpr (Or.inl hAo), ?_⟩
      rw [List.indexOf_append_of_mem hAo, List.indexOf_append_of_mem hB1]
      exact hidx
    · rw [List.mem_singleton] at hB1
      subst hB1
      have hAo : A ∈ order := hnbrs_a A ((mem_inNbrs pkgs A B).mpr hAB)
      refine ⟨List.mem_append.mpr (Or.inl hAo), ?_⟩
      rw [List.indexOf_append_of_mem hAo,
        List.indexOf_append_of_not_mem ha_not_order]
      have h0 : List.indexOf B [B] = 0 := by simp
      rw [h0]
      have := List.indexOf_lt_length.mpr hAo
      omega

theorem build_adj_some (pkgs : Pkgs) (HK : (keysOf pkgs).Nodup)
    (HI : ∀ p ∈ pkgs, p.2.imports.Nodup) {a : String} (ha : a ∈ keysOf pkgs) :
    alookup (buildDependencyGraph pkgs).adj a = some (depList pkgs a) := by
  have h := (build_char pkgs HK HI).2.2.2 a
  rcases mem_keys_alookup_isSome ha with ⟨pd, hpd⟩
  rw [h, hpd]
  rfl

theorem resolveLoop_inv (pkgs : Pkgs) (HK : (keysOf pkgs).Nodup)
    (HI : ∀ p ∈ pkgs, p.2.imports.Nodup) :
    ∀ (fuel : Nat) (inDeg : List (String × Nat)) (queue order : List String),
      KahnInv pkgs inDeg queue order →
      (keysOf pkgs).length ≤ fuel + order.length →
      KahnInv pkgs
        (resolveLoop (buildDependencyGraph pkgs).adj fuel inDeg queue order).1
        []
        (resolveLoop (buildDependencyGraph pkgs).adj fuel inDeg queue order).2 := by
  intro fuel
  induction fuel with
  | zero =>
    intro inDeg queue order inv hfuel
    have hqnil : queue = [] := by
      have hnd : (order ++ queue).Nodup := List.nodup_append.mpr
        ⟨inv.order_nodup, inv.queue_nodup, fun x hx hx2 => inv.disj x hx hx2⟩
      have hsub : (order ++ queue) ⊆ keysOf pkgs := by
        intro x hx
        rcases List.mem_append.mp hx with h | h
        · exact inv.order_keys x h
        · exact inv.queue_keys x h
      have hlen := (hnd.subperm hsub).length_le
      rw [List.length_append] at hlen
      have : queue.length = 0 := by omega
      exact List.length_eq_zero.mp this
    subst hqnil
    exact inv
  | succ fuel ih =>
    intro inDeg queue order inv hfuel
    cases queue with
    | nil => exact inv
    | cons a rest =>
      have ha_key : a ∈ keysOf pkgs := inv.queue_keys a (List.mem_cons_self _ _)
      have hadj : alookup (buildDependencyGraph pkgs).adj a
          = some (depList pkgs a) := build_adj_some pkgs HK HI ha_key
      have hstep : resolveLoop (buildDependencyGraph pkgs).adj (fuel + 1)
            inDeg (a :: rest) order
          = resolveLoop (buildDependencyGraph pkgs).adj fuel
              (processDependents (inDeg, rest) (depList pkgs a)).1
              (processDependents (inDeg, rest) (depList pkgs a)).2
              (order ++ [a]) := by
        rw [resolveLoop, hadj]
      rw [hstep]
      refine ih _ _ _ (kahn_step pkgs HK HI inDeg a rest order inv) ?_
      rw [List.length_append]
      simp only [List.length_singleton]
      omega

theorem kahn_init (pkgs : Pkgs) (HK : (keysOf pkgs).Nodup)
    (HI : ∀ p ∈ pkgs, p.2.imports.Nodup) :
    KahnInv pkgs (buildDependencyGraph pkgs).in_degree
      (((buildDependencyGraph pkgs).in_degree.filter
        (fun p => p.2 = 0)).map Prod.fst) [] := by
  rcases build_char pkgs HK HI with ⟨hk1, hk2, hdeg, hadj⟩
  have hdeg_some : ∀ b ∈ keysOf pkgs,
      alookup (buildDependencyGraph pkgs).in_degree b = some (indeg pkgs b) := by
    intro b hb
    rcases mem_keys_alookup_isSome hb with ⟨pd, hpd⟩
    rw [hdeg b, hpd]
    rfl
  have hdecnil : ∀ b, decCount pkgs [] b = 0 := by
    intro b
    simp [decCount]
  have hnd_in : ((buildDependencyGraph pkgs).in_degree.map Prod.fst).Nodup := by
    rw [hk1]
    exact HK
  have hqueue_mem : ∀ x,
      x ∈ (((buildDependencyGraph pkgs).in_degree.filter
        (fun p => p.2 = 0)).map Prod.fst) ↔
      alookup (buildDependencyGraph pkgs).in_degree x = some 0 := by
    intro x
    rw [List.mem_map]
    constructor
    · rintro ⟨p, hp, rfl⟩
      rcases List.mem_filter.mp hp with ⟨hpm, hp0⟩
      have := alookup_of_mem_nodup hnd_in hpm
      rw [this]
      simpa using hp0
    · intro h
      exact ⟨(x, 0), List.mem_filter.mpr ⟨alookup_mem h, by simp⟩, rfl⟩
  refine ⟨hk1, ?_, List.nodup_nil, ?_, by simp, ?_, by simp, ?_, by simp⟩
  · intro b hb
    rw [hdeg_some b hb, hdecnil b]
    simp
  · have hsub : ((buildDependencyGraph pkgs).in_degree.filter
        (fun p => p.2 = 0)).map Prod.fst |>.Sublist
        ((buildDependencyGraph pkgs).in_degree.map Prod.fst) :=
      (List.filter_sublist _).map Prod.fst
    exact hnd_in.sublist hsub
  · intro x hx
    rw [← hk1]
    rcases List.mem_map.mp ((hqueue_mem x).mpr
      ((hqueue_mem x).mp hx)) with ⟨p, hp, rfl⟩
    exact List.mem_map.mpr ⟨p, (List.mem_filter.mp hp).1, rfl⟩
  · intro x hx
    rw [hqueue_mem x, hdeg_some x hx, hdecnil x]
    constructor
    · intro h
      rcases h with h1 | h1
      · simp at h1
      · simpa [eq_comm] using h1
    · intro h
      exact Or.inr (by simpa [eq_comm] using h)

theorem appendLeftovers_spec :
    ∀ (dl : List (String × Nat)) (ord : List String),
      (dl.map Prod.fst).Nodup →
      (∀ p ∈ dl, p.1 ∉ ord → 0 < p.2) →
      appendLeftovers dl ord
        = ord ++ (dl.map Prod.fst).filter (fun x => x ∉ ord) := by
  intro dl
  induction dl with
  | nil =>
    intro ord _ _
    simp [appendLeftovers]
  | cons p rest ih =>
    intro ord hnd hpos
    rw [List.map_cons, List.nodup_cons] at hnd
    obtain ⟨hp, hrest⟩ := hnd
    by_cases hmem : p.1 ∈ ord
    · have hcond : ¬ (0 < p.2 ∧ p.1 ∉ ord) := fun hc => hc.2 hmem
      have : appendLeftovers (p :: rest) ord = appendLeftovers rest ord := by
        unfold appendLeftovers
        simp only [List.foldl_cons, if_neg hcond]
      rw [this, ih ord hrest (fun q hq => hpos q (List.mem_cons_of_mem _ hq))]
      congr 1
      rw [List.map_cons, List.filter_cons_of_neg (by simpa using hmem)]
    · have hval : 0 < p.2 := hpos p (List.mem_cons_self _ _) hmem
      have hcond : 0 < p.2 ∧ p.1 ∉ ord := ⟨hval, hmem⟩
      have hstep : appendLeftovers (p :: rest) ord
          = appendLeftovers rest (ord ++ [p.1]) := by
        unfold appendLeftovers
        simp only [List.foldl_cons, if_pos hcond]
      rw [hstep, ih (ord ++ [p.1]) hrest ?hpos2]
      case hpos2 =>
        intro q hq hqn
        exact hpos q (List.mem_cons_of_mem _ hq)
          (fun hc => hqn (List.mem_append.mpr (Or.inl hc)))
      have hfilter : (rest.map Prod.fst).filter (fun x => x ∉ ord ++ [p.1])
          = (rest.map Prod.fst).filter (fun x => x ∉ ord) := by
        apply List.filter_congr
        intro x hx
        have hxne : x ≠ p.1 := fun hc => hp (hc ▸ hx)
        simp only [List.mem_append, List.mem_singleton, decide_eq_decide]
        constructor
        · intro h hc
          exact h (Or.inl hc)
        · intro h hc
          rcases hc with h1 | h1
          · exact h h1
          · exact hxne h1
      rw [hfilter, List.map_cons, List.filter_cons_of_pos (by simpa using hmem)]
      simp

theorem topoSort_spec (pkgs : Pkgs) (HK : (keysOf pkgs).Nodup)
    (HI : ∀ p ∈ pkgs, p.2.imports.Nodup) :
    ∃ emitted finalDeg, KahnInv pkgs finalDeg [] emitted ∧
      generateDeploymentOrder pkgs
        = emitted ++ (keysOf pkgs).filter (fun x => x ∉ emitted) := by
  have hinit := kahn_init pkgs HK HI
  have hlen : (buildDependencyGraph pkgs).in_degree.length
      = (keysOf pkgs).length := by
    rw [← (build_char pkgs HK HI).1]
    exact (List.length_map _ _).symm
  set res := resolveLoop (buildDependencyGraph pkgs).adj
    (buildDependencyGraph pkgs).in_degree.length
    (buildDependencyGraph pkgs).in_degree
    (((buildDependencyGraph pkgs).in_degree.filter
      (fun p => p.2 = 0)).map Prod.fst) [] with hres
  have hfin : KahnInv pkgs res.1 [] res.2 := by
    rw [hres]
    exact resolveLoop_inv pkgs HK HI
      (buildDependencyGraph pkgs).in_degree.length
      (buildDependencyGraph pkgs).in_degree
      (((buildDependencyGraph pkgs).in_degree.filter
        (fun p => p.2 = 0)).map Prod.fst) [] hinit (by simp [hlen])
  refine ⟨res.2, res.1, hfin, ?_⟩
  have hdef : generateDeploymentOrder pkgs = appendLeftovers res.1 res.2 := rfl
  rw [hdef]
  have hndkeys : (res.1.map Prod.fst).Nodup := by
    rw [hfin.keys_eq]
    exact HK
  rw [appendLeftovers_spec _ _ hndkeys ?hpos, hfin.keys_eq]
  case hpos =>
    intro p hp hpn
    have hpk : p.1 ∈ keysOf pkgs := by
      rw [← hfin.keys_eq]
      exact List.mem_map.mpr ⟨p, hp, rfl⟩
    have hlook := alookup_of_mem_nodup hndkeys hp
    rw [hfin.lookup_eq p.1 hpk] at hlook
    have hne : decCount pkgs res.2 p.1 ≠ indeg pkgs p.1 := by
      intro heq
      rcases (hfin.reached_iff p.1 hpk).mpr heq with h | h
      · exact hpn h
      · cases h
    have hle := decCount_le_indeg pkgs res.2 p.1
    have hv : p.2 = indeg pkgs p.1 - decCount pkgs res.2 p.1 := by
      have h2 := hlook.symm
      simpa using h2
    rw [hv]
    omega

/-- The set of packages the Kahn phase emits is minimal among the
Edge-closed sets: any predicate that holds for a package whenever it holds
for all of that package’s in-neighbours holds on every emitted package.
(Proof: strong induction on the emission index, using that every
in-neighbour of an emitted package is emitted strictly earlier.) -/
theorem emitted_least_closed (pkgs : Pkgs) (finalDeg : List (String × Nat))
    (emitted : List String) (hfin : KahnInv pkgs finalDeg [] emitted) :
    ∀ S : String → Prop,
      (∀ x ∈ keysOf pkgs, (∀ a, Edge pkgs a x → S a) → S x) →
      ∀ x ∈ emitted, S x := by
  intro S hS
  suffices h : ∀ n, ∀ x ∈ emitted, emitted.indexOf x < n → S x by
    intro x hx
    exact h (emitted.indexOf x + 1) x hx (Nat.lt_succ_self _)
  intro n
  induction n with
  | zero =>
    intro x hx hlt
    omega
  | succ n ih =>
    intro x hx hlt
    apply hS x (hfin.order_keys x hx)
    intro a hedge
    rcases hfin.topo a x hedge hx with ⟨haem, hidx⟩
    exact ih a haem (by omega)

/-- C2: for every package map (cyclic graphs included) the deployment order
is produced without error or divergence and lists exactly the map’s package
names once each; it is an emitted prefix followed by the remaining keys in
the map’s original insertion order, where the emitted prefix is pinned as
the least Edge-closed subset of the keys (a package is emitted exactly when
all its in-neighbours are, and the emitted set is contained in every such
closed set) — that is, exactly the packages whose in-degree reaches zero
during the sort, so the appended suffix is exactly the packages whose
in-degree never reached zero, in map insertion order. -/
theorem c2_cycle_tolerant_order (pkgs : Pkgs)
    (HK : (keysOf pkgs).Nodup) (HI : ∀ p ∈ pkgs, p.2.imports.Nodup) :
    (generateDeploymentOrder pkgs).Nodup ∧
    (∀ x, x ∈ generateDeploymentOrder pkgs ↔ x ∈ keysOf pkgs) ∧
    ∃ emitted : List String, emitted.Nodup ∧
      (∀ x ∈ emitted, x ∈ keysOf pkgs) ∧
      generateDeploymentOrder pkgs
        = emitted ++ (keysOf pkgs).filter (fun x => x ∉ emitted) ∧
      (∀ x ∈ keysOf pkgs,
        (x ∈ emitted ↔ ∀ a, Edge pkgs a x → a ∈ emitted)) ∧
      (∀ S : String → Prop,
        (∀ x ∈ keysOf pkgs, (∀ a, Edge pkgs a x → S a) → S x) →
        ∀ x ∈ emitted, S x) := by
  obtain ⟨emitted, finalDeg, hfin, hr⟩ := topoSort_spec pkgs HK HI
  have hem_nodup := hfin.order_nodup
  have hem_keys := hfin.order_keys
  refine ⟨?_, ?_, emitted, hem_nodup, hem_keys, hr, ?_, ?_⟩
  · rw [hr]
    refine List.nodup_append.mpr ⟨hem_nodup, HK.filter _, ?_⟩
    intro x hx hxf
    have := (List.mem_filter.mp hxf).2
    simp only [decide_eq_true_eq] at this
    exact this hx
  · intro x
    rw [hr, List.mem_append, List.mem_filter]
    constructor
    · intro h
      rcases h with h1 | ⟨h1, _⟩
      · exact hem_keys x h1
      · exact h1
    · intro h
      by_cases hxe : x ∈ emitted
      · exact Or.inl hxe
      · exact Or.inr ⟨h, by simpa using hxe⟩
  · intro x hx
    have h1 := hfin.reached_iff x hx
    have h2 := decCount_eq_indeg_iff pkgs emitted x
    constructor
    · intro hxe a hedge
      have hdec : decCount pkgs emitted x = indeg pkgs x :=
        h1.mp (Or.inl hxe)
      exact h2.mp hdec a ((mem_inNbrs pkgs a x).mpr hedge)
    · intro hcl
      have hdec : decCount pkgs emitted x = indeg pkgs x :=
        h2.mpr (fun a ha => hcl a ((mem_inNbrs pkgs a x).mp ha))
      rcases h1.mpr hdec with h | h
      · exact h
      · cases h
  · exact emitted_least_closed pkgs finalDeg emitted hfin

/-- If the edge relation admits no cycle, a nonempty node list in which every
node has an in-neighbour inside the list cannot exist. -/
theorem no_cycle_no_pred_closed (pkgs : Pkgs)
    (hacyc : ∀ x, ¬ Relation.TransGen (Edge pkgs) x x) :
    ∀ (n : Nat) (L : List String), L.length ≤ n →
      (∀ x ∈ L, ∃ a, Edge pkgs a x ∧ a ∈ L) → L = [] := by
  intro n
  induction n with
  | zero =>
    intro L hl _
    exact List.length_eq_zero.mp (Nat.le_zero.mp hl)
  | succ n ih =>
    intro L hl hpred
    cases L with
    | nil => rfl
    | cons x L2 =>
      exfalso
      classical
      have hmemL2 : ∀ y, y ∈ (x :: L2).filter
          (fun y => decide (Relation.TransGen (Edge pkgs) y x)) ↔
          y ∈ x :: L2 ∧ Relation.TransGen (Edge pkgs) y x := by
        intro y
        rw [List.mem_filter]
        simp
      have hpred2 : ∀ y ∈ (x :: L2).filter
          (fun y => decide (Relation.TransGen (Edge pkgs) y x)),
          ∃ a, Edge pkgs a y ∧ a ∈ (x :: L2).filter
            (fun y => decide (Relation.TransGen (Edge pkgs) y x)) := by
        intro y hy
        rcases (hmemL2 y).mp hy with ⟨hyL, hyT⟩
        rcases hpred y hyL with ⟨a, ha1, ha2⟩
        exact ⟨a, ha1, (hmemL2 a).mpr ⟨ha2, Relation.TransGen.head ha1 hyT⟩⟩
      have hxL2 : x ∉ (x :: L2).filter
          (fun y => decide (Relation.TransGen (Edge pkgs) y x)) := by
        intro hc
        exact hacyc x ((hmemL2 x).mp hc).2
      have hlt : ((x :: L2).filter
          (fun y => decide (Relation.TransGen (Edge pkgs) y x))).length
          < (x :: L2).length := by
        rcases Nat.lt_or_ge ((x :: L2).filter
          (fun y => decide (Relation.TransGen (Edge pkgs) y x))).length
          (x :: L2).length with h | h
        · exact h
        · exfalso
          have heq := Nat.le_antisymm (List.length_filter_le _ _) h
          have hfeq := (List.filter_sublist (x :: L2)).eq_of_length heq
          apply hxL2
          rw [hfeq]
          exact List.mem_cons_self x L2
      have hnil := ih ((x :: L2).filter
        (fun y => decide (Relation.TransGen (Edge pkgs) y x)))
        (by simp only [List.length_cons] at hl hlt; omega) hpred2
      rcases hpred x (List.mem_cons_self _ _) with ⟨a, ha1, ha2⟩
      have haL2 : a ∈ (x :: L2).filter
          (fun y => decide (Relation.TransGen (Edge pkgs) y x)) :=
        (hmemL2 a).mpr ⟨ha2, Relation.TransGen.single ha1⟩
      rw [hnil] at haL2
      cases haL2

/-- C1: on a package map whose induced dependency graph is acyclic (no
package reaches itself through the import relation restricted to the map),
generate_deployment_order puts every package A before every package B
whose import set contains A, whenever both are in the map. -/
theorem c1_topological_validity (pkgs : Pkgs)
    (HK : (keysOf pkgs).Nodup) (HI : ∀ p ∈ pkgs, p.2.imports.Nodup)
    (hacyc : ∀ x, ¬ Relation.TransGen (Edge pkgs) x x)
    (A B : String) (hA : A ∈ keysOf pkgs) (hB : B ∈ keysOf pkgs)
    (hImp : A ∈ importsOf pkgs B) :
    A ∈ generateDeploymentOrder pkgs ∧ B ∈ generateDeploymentOrder pkgs ∧
    (generateDeploymentOrder pkgs).indexOf A
      < (generateDeploymentOrder pkgs).indexOf B := by
  obtain ⟨emitted, finalDeg, hfin, hr⟩ := topoSort_spec pkgs HK HI
  have hLnil : (keysOf pkgs).filter (fun x => x ∉ emitted) = [] := by
    apply no_cycle_no_pred_closed pkgs hacyc
      ((keysOf pkgs).filter (fun x => x ∉ emitted)).length _ le_rfl
    intro x hx
    rcases List.mem_filter.mp hx with ⟨hxk, hxe⟩
    have hxe2 : x ∉ emitted := by simpa using hxe
    have hne : decCount pkgs emitted x ≠ indeg pkgs x := by
      intro heq
      rcases (hfin.reached_iff x hxk).mpr heq with h | h
      · exact hxe2 h
      · cases h
    have hex : ∃ A2 ∈ inNbrs pkgs x, A2 ∉ emitted := by
      by_contra hcon
      push_neg at hcon
      exact hne ((decCount_eq_indeg_iff pkgs emitted x).mpr hcon)
    rcases hex with ⟨A2, hA2n, hA2e⟩
    have hedge : Edge pkgs A2 x := (mem_inNbrs pkgs A2 x).mp hA2n
    exact ⟨A2, hedge, List.mem_filter.mpr
      ⟨(edge_mem_keys hedge).1, by simpa using hA2e⟩⟩
  have hrr : generateDeploymentOrder pkgs = emitted := by
    rw [hr, hLnil, List.append_nil]
  have hedgeAB : Edge pkgs A B := ⟨(containsKey_iff pkgs A).mpr hA, hImp⟩
  have hBe : B ∈ emitted := by
    by_contra hc
    have hmem : B ∈ (keysOf pkgs).filter (fun x => x ∉ emitted) :=
      List.mem_filter.mpr ⟨hB, by simpa using hc⟩
    rw [hLnil] at hmem
    cases hmem
  rcases hfin.topo A B hedgeAB hBe with ⟨hAe, hidx⟩
  rw [hrr]
  exact ⟨hAe, hBe, hidx⟩

/-- Two-package cycle for the C2 witness: x imports y and y imports x. -/
def c2CyclePkgs : Pkgs :=
  [("x", { name := "x", imports := ["y"] }),
   ("y", { name := "y", imports := ["x"] })]

/-- C2 witness: the 2-node cycle yields an order with exactly both nodes, no
error and no divergence, with the cyclic packages characterized as the
complement of the least Edge-closed set. -/
theorem c2_cycle_tolerant_order_witness :
    (generateDeploymentOrder c2CyclePkgs).Nodup ∧
    (∀ x, x ∈ generateDeploymentOrder c2CyclePkgs ↔ x ∈ keysOf c2CyclePkgs) ∧
    ∃ emitted : List String, emitted.Nodup ∧
      (∀ x ∈ emitted, x ∈ keysOf c2CyclePkgs) ∧
      generateDeploymentOrder c2CyclePkgs
        = emitted ++ (keysOf c2CyclePkgs).filter (fun x => x ∉ emitted) ∧
      (∀ x ∈ keysOf c2CyclePkgs,
        (x ∈ emitted ↔ ∀ a, Edge c2CyclePkgs a x → a ∈ emitted)) ∧
      (∀ S : String → Prop,
        (∀ x ∈ keysOf c2CyclePkgs,
          (∀ a, Edge c2CyclePkgs a x → S a) → S x) →
        ∀ x ∈ emitted, S x) :=
  c2_cycle_tolerant_order c2CyclePkgs (by decide) (by decide)

/-- Acyclic two-package map for the C1 witness: b imports a. -/
def c1AcyclicPkgs : Pkgs :=
  [("a", { name := "a", imports := [] }),
   ("b", { name := "b", imports := ["a"] })]

/-- Rank function witnessing acyclicity of c1AcyclicPkgs. -/
def c1Rank (s : String) : Nat := if s = "b" then 1 else 0

theorem c1AcyclicPkgs_acyclic :
    ∀ x, ¬ Relation.TransGen (Edge c1AcyclicPkgs) x x := by
  have hmono : ∀ u v, Edge c1AcyclicPkgs u v → c1Rank u < c1Rank v := by
    intro u v hedge
    rcases hedge with ⟨hk, him⟩
    by_cases hva : ("a" : String) = v
    · subst hva
      simp [importsOf, alookup, c1AcyclicPkgs] at him
    · by_cases hvb : ("b" : String) = v
      · subst hvb
        have hu : u = "a" := by
          simpa [importsOf, alookup, c1AcyclicPkgs] using him
        subst hu
        decide
      · simp [importsOf, alookup, c1AcyclicPkgs, hva, hvb] at him
  intro x hx
  have hlift := Relation.TransGen.lift c1Rank hmono hx
  have htrans : Transitive (fun m n : Nat => m < n) :=
    fun _ _ _ h1 h2 => Nat.lt_trans h1 h2
  rw [Relation.transGen_eq_self htrans] at hlift
  exact Nat.lt_irrefl _ hlift

/-- C1 witness: in the acyclic map where b imports a, package a precedes
package b in the generated deployment order. -/
theorem c1_topological_validity_witness :
    "a" ∈ generateDeploymentOrder c1AcyclicPkgs ∧
    "b" ∈ generateDeploymentOrder c1AcyclicPkgs ∧
    (generateDeploymentOrder c1AcyclicPkgs).indexOf "a"
      < (generateDeploymentOrder c1AcyclicPkgs).indexOf "b" :=
  c1_topological_validity c1AcyclicPkgs (by decide) (by decide)
    c1AcyclicPkgs_acyclic "a" "b" (by decide) (by decide) (by decide)

/-- Concrete one-task queue whose download fails terminally, for the C10
witness. -/
def c10Queue : List DownloadTask := [c6Task "w" 2]

def c10Outcome : DownloadTask → TaskOutcome :=
  fun _ => TaskOutcome.err DownloadError.maxRetriesExceeded

def c10Failed : FailedDownload :=
  { package := "w", error := DownloadError.maxRetriesExceeded, retry_count := 0 }

/-- C10 witness: the recorded failure of the concrete run carries
retry_count = 0. -/
theorem c10_failed_retry_count_zero_witness :
    c10Failed ∈ (processQueue c10Queue c10Outcome).failed ∧
      c10Failed.retry_count = 0 :=
  ⟨by decide, c10_failed_retry_count_zero c10Queue c10Outcome c10Failed (by decide)⟩
